import Mathlib

/-!
# YOLOv5 bounding-box parser (`nvdsinfer_custombboxparser.cpp`)

A shallow embedding of the DeepStream custom parser `NvDsInferParseYolo` and of its
helpers `overlap1D`, `computeIoU`, `nonMaximumSuppression`, `clamp`, `convertBBox`,
`addBBoxProposal` and `nmsAllClasses`, followed by theorems about them.

Modelling conventions.

* C++ `float` values are rationals `ℚ`; comparison, `min` and `max` are exact on them, as
  they are on floats.  The literals `0.4f` and `0.45` (converted to `float`) are the
  binary32 values `13421773 / 2^25` and `7549747 / 2^24`.
* Inside `computeIoU` every `+`, `-`, `*`, `/` is the exact operation followed by `roundF32`,
  the rounding to binary32 (nearest, ties to even).  The exponent range of `roundF32` is
  unbounded: overflow to infinity, underflow and NaN are outside the model.
* The fields of a box are `float` variables; `computeIoU` reads them through `readF32`, which
  is the identity on every `float`.
* In the decoder (`convertBBox` and the product of class score and objectness) `+`, `-`, `*`,
  `/` are the exact operations: the rounding of those results is outside the model.
* `uint` / `unsigned int` values (`netW`, `netH`, `numClassesConfigured`, `classId`)
  and the `int` loop counters are natural numbers; the products `i * dimensions`
  are assumed not to overflow.
* The caller's output-layer buffer `float* output` is a map from index to value.
  The source writes into it, so the decoder threads the buffer through as state.
* `splitBoxes.at(classId)` throws `std::out_of_range`; the functions that reach it
  return `Option`, `none` standing for the exception.
-/

namespace YoloParser

/-- The record `NvDsInferParseObjectInfo` (`NvDsInferObjectDetectionInfo`) of the SDK header:
a class label, a box in corner format and a confidence. -/
structure NvDsInferParseObjectInfo where
  classId : Nat
  left : ℚ
  top : ℚ
  width : ℚ
  height : ℚ
  detectionConfidence : ℚ
  deriving DecidableEq

/-- The caller's float buffer, indexed from 0. -/
abbrev Buffer := Nat → ℚ

/-- The record `NvDsInferLayerInfo`, reduced to the two fields the parser could look at:
the layer's dimensions and its buffer. -/
structure NvDsInferLayerInfo where
  inferDims : List Nat
  buffer : Buffer

/-- The record `NvDsInferNetworkInfo`: the network input size. -/
structure NvDsInferNetworkInfo where
  width : Nat
  height : Nat

/-- The record `NvDsInferParseDetectionParams`: class count and the per-class thresholds. -/
structure NvDsInferParseDetectionParams where
  numClassesConfigured : Nat
  perClassThreshold : List ℚ

/-! ## Float arithmetic -/

/-- Rounding of a rational to the nearest integer, ties going to the even one. -/
def rne (y : ℚ) : ℤ :=
  if y - ⌊y⌋ < 1 / 2 then ⌊y⌋
  else if 1 / 2 < y - ⌊y⌋ then ⌊y⌋ + 1
  else if ⌊y⌋ % 2 = 0 then ⌊y⌋ else ⌊y⌋ + 1

/-- Rounding of a real value to `float` (binary32): the value is scaled so that its
significand has 24 bits, rounded to the nearest integer with ties to even, and scaled back.
The exponent is not bounded. -/
def roundF32 (x : ℚ) : ℚ :=
  if x = 0 then 0
  else (rne (x / 2 ^ (Int.log 2 |x| - 23)) : ℚ) * 2 ^ (Int.log 2 |x| - 23)

/-- The `float` sum `a + b`. -/
def fadd (a b : ℚ) : ℚ := roundF32 (a + b)

/-- The `float` difference `a - b`. -/
def fsub (a b : ℚ) : ℚ := roundF32 (a - b)

/-- The `float` product `a * b`. -/
def fmul (a b : ℚ) : ℚ := roundF32 (a * b)

/-- The `float` quotient `a / b`. -/
def fdiv (a b : ℚ) : ℚ := roundF32 (a / b)

/-! ## Geometry -/

/-- The lambda `overlap1D` of `nonMaximumSuppression`.  When `x1min > x2min` the two
intervals are swapped, which the first branch spells out. -/
def overlap1D (x1min x1max x2min x2max : ℚ) : ℚ :=
  if x1min > x2min then
    (if x2max < x1min then 0 else fsub (min x2max x1max) x1min)
  else
    (if x1max < x2min then 0 else fsub (min x1max x2max) x2min)

/-- The `float` held by a `float` variable whose value in a record is written `x`: the fields
of a box are `float` variables, so this is the identity on every value they can hold. -/
def readF32 (x : ℚ) : ℚ := roundF32 x

/-- The lambda `computeIoU` of `nonMaximumSuppression`; every operation is a `float`
operation on the `float` fields of the two boxes. -/
def computeIoU (bbox1 bbox2 : NvDsInferParseObjectInfo) : ℚ :=
  let overlapX :=
    overlap1D (readF32 bbox1.left) (fadd (readF32 bbox1.left) (readF32 bbox1.width))
      (readF32 bbox2.left) (fadd (readF32 bbox2.left) (readF32 bbox2.width))
  let overlapY :=
    overlap1D (readF32 bbox1.top) (fadd (readF32 bbox1.top) (readF32 bbox1.height))
      (readF32 bbox2.top) (fadd (readF32 bbox2.top) (readF32 bbox2.height))
  let area1 := fmul (readF32 bbox1.width) (readF32 bbox1.height)
  let area2 := fmul (readF32 bbox2.width) (readF32 bbox2.height)
  let overlap2D := fmul overlapX overlapY
  let u := fsub (fadd area1 area2) overlap2D
  if u = 0 then 0 else fdiv overlap2D u

/-- The function `clamp`.  Its assertion `minVal <= maxVal` holds at every call site
(`minVal` is `0`, `maxVal` an unsigned size) and is not modelled. -/
def clamp (val minVal maxVal : ℚ) : ℚ :=
  min maxVal (max minVal val)

/-- The function `convertBBox`.  The fields `classId` and `detectionConfidence`, which the
source leaves unset, are `0` here. -/
def convertBBox (bx by_ bw bh : ℚ) (netW netH : Nat) : NvDsInferParseObjectInfo :=
  let x1 := bx - bw / 2
  let y1 := by_ - bh / 2
  let x2 := x1 + bw
  let y2 := y1 + bh
  let x1 := clamp x1 0 netW
  let y1 := clamp y1 0 netH
  let x2 := clamp x2 0 netW
  let y2 := clamp y2 0 netH
  { classId := 0
    left := x1
    width := clamp (x2 - x1) 0 netW
    top := y1
    height := clamp (y2 - y1) 0 netH
    detectionConfidence := 0 }

/-- The function `addBBoxProposal`; the result is the new content of `binfo`. -/
def addBBoxProposal (bx by_ bw bh : ℚ) (netW netH : Nat) (maxIndex : Nat) (maxProb : ℚ)
    (binfo : List NvDsInferParseObjectInfo) : List NvDsInferParseObjectInfo :=
  let bbi := convertBBox bx by_ bw bh netW netH
  if bbi.width < 1 ∨ bbi.height < 1 then binfo
  else binfo ++ [{ bbi with detectionConfidence := maxProb, classId := maxIndex }]

/-! ## Non-maximum suppression -/

/-- The comparator handed to `std::stable_sort` is `b1.conf > b2.conf`; a list is sorted for
it when no later element is strictly greater than an earlier one, which is this relation. -/
def confGE (b1 b2 : NvDsInferParseObjectInfo) : Prop :=
  b2.detectionConfidence ≤ b1.detectionConfidence

instance : DecidableRel confGE := fun b1 b2 =>
  inferInstanceAs (Decidable (b2.detectionConfidence ≤ b1.detectionConfidence))

instance : IsTotal NvDsInferParseObjectInfo confGE :=
  ⟨fun b1 b2 => le_total b2.detectionConfidence b1.detectionConfidence⟩

instance : IsTrans NvDsInferParseObjectInfo confGE :=
  ⟨fun _ _ _ h12 h23 => le_trans h23 h12⟩

/-- The call `std::stable_sort(binfo.begin(), binfo.end(), ...)`: the stable sort by descending
confidence.  A stable sort's result is fixed by its contract, and insertion from the right
(each element goes in front of the first one it is not smaller than) computes it. -/
def stableSortDesc (binfo : List NvDsInferParseObjectInfo) : List NvDsInferParseObjectInfo :=
  binfo.insertionSort confGE

/-- The inner loop `for (auto j : out)` of `nonMaximumSuppression` with its flag `keep`:
while `keep` holds it is recomputed against the next accepted box, else the loop breaks. -/
def keepLoop (nmsThresh : ℚ) (i : NvDsInferParseObjectInfo) :
    Bool → List NvDsInferParseObjectInfo → Bool
  | keep, [] => keep
  | keep, j :: rest =>
    if keep then keepLoop nmsThresh i (decide (computeIoU i j ≤ nmsThresh)) rest
    else keep

/-- The outer loop `for (auto i : binfo)` of `nonMaximumSuppression` over the sorted list,
carrying the accepted list `out`. -/
def nmsLoop (nmsThresh : ℚ) :
    List NvDsInferParseObjectInfo → List NvDsInferParseObjectInfo → List NvDsInferParseObjectInfo
  | [], out => out
  | i :: rest, out =>
    nmsLoop nmsThresh rest (if keepLoop nmsThresh i true out then out ++ [i] else out)

/-- The function `nonMaximumSuppression`. -/
def nonMaximumSuppression (nmsThresh : ℚ) (binfo : List NvDsInferParseObjectInfo) :
    List NvDsInferParseObjectInfo :=
  nmsLoop nmsThresh (stableSortDesc binfo) []

/-- One step of the first loop of `nmsAllClasses`:
`splitBoxes.at(box.classId).push_back(box)`, `none` when `at` throws. -/
def pushSplit (splitBoxes : List (List NvDsInferParseObjectInfo))
    (box : NvDsInferParseObjectInfo) : Option (List (List NvDsInferParseObjectInfo)) :=
  if box.classId < splitBoxes.length then
    some (splitBoxes.modify (fun boxes => boxes ++ [box]) box.classId)
  else none

/-- The function `nmsAllClasses`: bucket by class, suppress each bucket, concatenate. -/
def nmsAllClasses (nmsThresh : ℚ) (binfo : List NvDsInferParseObjectInfo) (numClasses : Nat) :
    Option (List NvDsInferParseObjectInfo) :=
  match binfo.foldlM pushSplit (List.replicate numClasses []) with
  | none => none
  | some splitBoxes =>
    some (splitBoxes.foldl (fun result boxes => result ++ nonMaximumSuppression nmsThresh boxes) [])

/-! ## Vocabulary for the statements about suppression -/

/-- The acceptance rule on a list in acceptance order: every element has IoU at most the
threshold against every element before it. -/
def Accepted (nmsThresh : ℚ) (out : List NvDsInferParseObjectInfo) : Prop :=
  out.Pairwise (fun p q => computeIoU q p ≤ nmsThresh)

/-- The class-`c` candidates of a list, in list order. -/
def ofClass (c : Nat) (binfo : List NvDsInferParseObjectInfo) : List NvDsInferParseObjectInfo :=
  binfo.filter (fun b => b.classId = c)

/-- The buckets `splitBoxes` after the first loop of `nmsAllClasses`. -/
def buckets (numClasses : Nat) (binfo : List NvDsInferParseObjectInfo) :
    List (List NvDsInferParseObjectInfo) :=
  (List.range numClasses).map (fun c => ofClass c binfo)

/-! ## Sample candidates used to instantiate the statements -/

/-- A `10 x 10` box of class 0 at the origin, confidence `0.9`. -/
def sampleA : NvDsInferParseObjectInfo := ⟨0, 0, 0, 10, 10, 9 / 10⟩

/-- A `10 x 10` box of class 0 at `(20, 20)`, disjoint from `sampleA`, confidence `0.8`. -/
def sampleB : NvDsInferParseObjectInfo := ⟨0, 20, 20, 10, 10, 4 / 5⟩

/-- The box of `sampleA` with class 1, confidence `0.7`. -/
def sampleC : NvDsInferParseObjectInfo := ⟨1, 0, 0, 10, 10, 7 / 10⟩

/-- A `10 x 10` box of class 0 at `(1, 0)`, overlapping `sampleA` with IoU `9/11`,
confidence `0.6`. -/
def sampleD : NvDsInferParseObjectInfo := ⟨0, 1, 0, 10, 10, 3 / 5⟩

/-! ## The decoder -/

/-- The constant `confidenceIndex`. -/
def confidenceIndex : Nat := 4

/-- The constant `labelStartIndex`. -/
def labelStartIndex : Nat := 5

/-- The constant `beta_nms`: the literal `0.45` converted to `float`. -/
def beta_nms : ℚ := 7549747 / 16777216

/-- The literal `0.4f` that the objectness of a cell is compared with: the `float` nearest to
`0.4`, which is `13421773 / 2^25`. -/
def objectnessGate : ℚ := 13421773 / 33554432

/-- The loop `for (int j = labelStartIndex; j < dimensions; ++j)`: every class score of the
cell at `index` is overwritten, in the buffer, by its product with the cell's objectness. -/
def scaleLoop (output : Buffer) (index dimensions : Nat) : Buffer :=
  (List.range' labelStartIndex (dimensions - labelStartIndex)).foldl
    (fun out j => Function.update out (index + j) (out (index + j) * out (index + confidenceIndex)))
    output

/-- The loop `for (int k = labelStartIndex; k < dimensions; ++k)`: every class whose buffer
value is above `kCONF_THRESH` proposes the cell's box. -/
def classLoop (output : Buffer) (index dimensions : Nat) (kCONF_THRESH : ℚ) (netW netH : Nat)
    (binfo : List NvDsInferParseObjectInfo) : List NvDsInferParseObjectInfo :=
  (List.range' labelStartIndex (dimensions - labelStartIndex)).foldl
    (fun binfo k =>
      if output (index + k) ≤ kCONF_THRESH then binfo
      else
        addBBoxProposal (output index) (output (index + 1)) (output (index + 2))
          (output (index + 3)) netW netH (k - 5) (output (index + k)) binfo)
    binfo

/-- The body of the loop over the cells, for cell `i`, on the state made of the buffer and
the candidate list `binfo`.  The test `output[index + 4] <= 0.4f` compares two `float`
values, so the bound is `objectnessGate`. -/
def cellBody (dimensions : Nat) (kCONF_THRESH : ℚ) (netW netH : Nat)
    (st : Buffer × List NvDsInferParseObjectInfo) (i : Nat) :
    Buffer × List NvDsInferParseObjectInfo :=
  let index := i * dimensions
  if st.1 (index + confidenceIndex) ≤ objectnessGate then st
  else
    let output := scaleLoop st.1 index dimensions
    (output, classLoop output index dimensions kCONF_THRESH netW netH st.2)

/-- The loop `for (int i = 0; i < numCells; ++i)` started on an empty `binfo`; the source
runs it with `numCells = 25200`. -/
def decodeCells (numCells dimensions : Nat) (kCONF_THRESH : ℚ) (netW netH : Nat)
    (output : Buffer) : Buffer × List NvDsInferParseObjectInfo :=
  (List.range numCells).foldl (cellBody dimensions kCONF_THRESH netW netH) (output, [])

/-- The decode stage of `NvDsInferParseYolo` (everything before `objectList.clear()`) with the
bound of the cell loop as a parameter: the buffer it leaves behind and the candidate list
`binfo` handed to `nmsAllClasses`.  The source runs it with the bound `25200`, so the list
that `NvDsInferParseYolo` hands to `nmsAllClasses` is `(decodeStage 25200 ...).2`.  Reading `perClassThreshold[0]` of an empty vector is
undefined in the source and reads `0` here. -/
def decodeStage (numCells : Nat) (layer : NvDsInferLayerInfo)
    (networkInfo : NvDsInferNetworkInfo) (detectionParams : NvDsInferParseDetectionParams) :
    Buffer × List NvDsInferParseObjectInfo :=
  let kCONF_THRESH := detectionParams.perClassThreshold.getD 0 0
  let dimensions := 5 + detectionParams.numClassesConfigured
  decodeCells numCells dimensions kCONF_THRESH networkInfo.width networkInfo.height layer.buffer

/-- What a call of `NvDsInferParseYolo` leaves behind: the caller's buffer, the caller's
`objectList` and the returned flag. -/
structure ParseOutcome where
  buffer : Buffer
  objectList : List NvDsInferParseObjectInfo
  ret : Bool

/-- The body of `NvDsInferParseYolo` on output layer 0 (the only one it looks at), with the
bound of the cell loop as a parameter.  The prior content of `objectList` is cleared and
replaced. -/
def parseCells (numCells : Nat) (layer : NvDsInferLayerInfo)
    (networkInfo : NvDsInferNetworkInfo) (detectionParams : NvDsInferParseDetectionParams)
    (_objectList : List NvDsInferParseObjectInfo) : Option ParseOutcome :=
  let st := decodeStage numCells layer networkInfo detectionParams
  match nmsAllClasses beta_nms st.2 detectionParams.numClassesConfigured with
  | none => none
  | some objectList => some { buffer := st.1, objectList := objectList, ret := true }

/-- The function `NvDsInferParseYolo`: the source writes the loop bound as the literal
`25200`, whatever the dimensions of the layer. -/
def NvDsInferParseYolo (layer : NvDsInferLayerInfo) (networkInfo : NvDsInferNetworkInfo)
    (detectionParams : NvDsInferParseDetectionParams)
    (objectList : List NvDsInferParseObjectInfo) : Option ParseOutcome :=
  parseCells 25200 layer networkInfo detectionParams objectList

/-! ## Vocabulary for the statements about the decoder -/

/-- The candidates that the loop body emits for cell `i` when it runs on the buffer `output`:
what `cellBody` appends to an empty `binfo`. -/
def cellCandidates (output : Buffer) (dimensions : Nat) (kCONF_THRESH : ℚ) (netW netH : Nat)
    (i : Nat) : List NvDsInferParseObjectInfo :=
  (cellBody dimensions kCONF_THRESH netW netH (output, []) i).2

/-- The buffer obtained from `output` by replacing, in each of the first `numCells` cells
whose objectness is above `0.4f`, every class score by its product with the objectness. -/
def scaledBuffer (output : Buffer) (dimensions numCells : Nat) : Buffer :=
  fun idx =>
    if idx / dimensions < numCells ∧ 5 ≤ idx % dimensions ∧
        objectnessGate < output (idx / dimensions * dimensions + 4) then
      output idx * output (idx / dimensions * dimensions + 4)
    else output idx

/-- The box that cell `i` of `output` proposes: `convertBBox` of the first four values of
its row. -/
def cellBox (output : Buffer) (dimensions netW netH i : Nat) : NvDsInferParseObjectInfo :=
  convertBBox (output (i * dimensions)) (output (i * dimensions + 1))
    (output (i * dimensions + 2)) (output (i * dimensions + 3)) netW netH

/-- A one-cell row for two classes: centre `(5, 5)`, size `4 x 4`, objectness `0.5`, class
scores `0.5` and `0.5`. -/
def sampleCell : List ℚ := [5, 5, 4, 4, 1 / 2, 1 / 2, 1 / 2]

/-- An output layer of 25200 cells of 7 values: cell 0 is `sampleCell`, every other value
is `0`. -/
def sampleLayer : NvDsInferLayerInfo := ⟨[25200, 7], fun idx => sampleCell.getD idx 0⟩

/-- A `10 x 10` network input. -/
def sampleNet : NvDsInferNetworkInfo := ⟨10, 10⟩

/-- Two classes with thresholds `0.9` for class 0 and `0.1` for class 1. -/
def sampleParams : NvDsInferParseDetectionParams := ⟨2, [9 / 10, 1 / 10]⟩

/-- Two classes with threshold `0.2` each. -/
def sampleParamsLow : NvDsInferParseDetectionParams := ⟨2, [1 / 5, 1 / 5]⟩

/-! ## Further sample inputs -/

/-- A `10 x 10` box of class 0 at `(20, 20)` (the box of `sampleB`) with confidence `0.9`, the
confidence of `sampleA`. -/
def sampleE : NvDsInferParseObjectInfo := ⟨0, 20, 20, 10, 10, 9 / 10⟩

/-- A box whose fields are `float` values and whose right corner `512 + (1 + 2^-16)` is not
one: the sum rounds to `513`. -/
def sampleF : NvDsInferParseObjectInfo := ⟨0, 512, 0, 65537 / 65536, 1, 1 / 2⟩

/-- An output layer of 25200 cells of 7 values in which every objectness is exactly the gate
value, the `float` `0.4f`, and every other value is `1`. -/
def gateLayer : NvDsInferLayerInfo :=
  ⟨[25200, 7], fun idx => if idx % 7 = 4 then objectnessGate else 1⟩

/-- A one-cell row for two classes with objectness `1` and class scores `2` and `0`. -/
def hotCell : List ℚ := [5, 5, 4, 4, 1, 2, 0]

/-- An output layer of 25200 cells of 7 values: cell 0 is `hotCell`, every other value is
`0`. -/
def hotLayer : NvDsInferLayerInfo := ⟨[25200, 7], fun idx => hotCell.getD idx 0⟩

theorem rne_intCast (m : ℤ) : rne (m : ℚ) = m := by
  unfold rne
  rw [Int.floor_intCast, sub_self, if_pos (by norm_num)]

theorem rne_of_lt_half (f : ℤ) (y : ℚ) (h1 : (f : ℚ) ≤ y) (h2 : y - f < 1 / 2) : rne y = f := by
  have hf : ⌊y⌋ = f := Int.floor_eq_iff.2 ⟨h1, by linarith⟩
  unfold rne
  rw [hf, if_pos h2]

theorem rne_of_half_lt (f : ℤ) (y : ℚ) (h1 : 1 / 2 < y - f) (h2 : y < f + 1) :
    rne y = f + 1 := by
  have hf : ⌊y⌋ = f := Int.floor_eq_iff.2 ⟨by linarith, h2⟩
  unfold rne
  rw [hf, if_neg (by linarith), if_pos h1]

theorem rne_cases (y : ℚ) : rne y = ⌊y⌋ ∨ (rne y = ⌊y⌋ + 1 ∧ 1 / 2 ≤ y - ⌊y⌋) := by
  unfold rne
  by_cases h1 : y - ⌊y⌋ < 1 / 2
  · left; rw [if_pos h1]
  · rw [if_neg h1]
    by_cases h2 : 1 / 2 < y - ⌊y⌋
    · right; rw [if_pos h2]; exact ⟨rfl, not_lt.1 h1⟩
    · rw [if_neg h2]
      by_cases h3 : ⌊y⌋ % 2 = 0
      · left; rw [if_pos h3]
      · right; rw [if_neg h3]; exact ⟨rfl, not_lt.1 h1⟩

theorem le_rne {k : ℤ} {y : ℚ} (h : (k : ℚ) ≤ y) : k ≤ rne y := by
  have hk : k ≤ ⌊y⌋ := Int.le_floor.2 h
  rcases rne_cases y with h1 | ⟨h1, _⟩ <;> rw [h1] <;> omega

theorem rne_le {k : ℤ} {y : ℚ} (h : y ≤ (k : ℚ)) : rne y ≤ k := by
  rcases rne_cases y with h1 | ⟨h1, h2⟩
  · rw [h1]
    have : (⌊y⌋ : ℚ) ≤ k := (Int.floor_le y).trans h
    exact_mod_cast this
  · rw [h1]
    have hlt : (⌊y⌋ : ℚ) < k := by linarith
    have : ⌊y⌋ < k := by exact_mod_cast hlt
    omega

/-- The binary exponent of a positive rational is fixed by the two powers of two around
it. -/
theorem log2_eq {x : ℚ} {e : ℤ} (h1 : (2 : ℚ) ^ e ≤ x) (h2 : x < 2 ^ (e + 1)) :
    Int.log 2 x = e := by
  have hx : 0 < x := lt_of_lt_of_le (by positivity) h1
  have a : e ≤ Int.log 2 x :=
    (Int.zpow_le_iff_le_log (by norm_num) hx).1 (by exact_mod_cast h1)
  have b : Int.log 2 x < e + 1 :=
    (Int.lt_zpow_iff_log_lt (by norm_num) hx).1 (by exact_mod_cast h2)
  omega

/-- Evaluation of `roundF32` from the binary exponent of its argument. -/
theorem roundF32_eval {x : ℚ} {e n : ℤ} (h1 : (2 : ℚ) ^ e ≤ |x|) (h2 : |x| < 2 ^ (e + 1))
    (hn : rne (x / 2 ^ (e - 23)) = n) : roundF32 x = n * 2 ^ (e - 23) := by
  have hx : x ≠ 0 := by
    intro h0
    rw [h0, abs_zero] at h1
    exact absurd h1 (not_le.2 (by positivity))
  unfold roundF32
  rw [if_neg hx, log2_eq h1 h2, hn]

theorem two_zpow_pos (k : ℤ) : (0 : ℚ) < 2 ^ k := zpow_pos (by norm_num) k

/-- A value with a significand of at most 24 bits is a `float`: rounding leaves it as it
is. -/
theorem roundF32_exact (m k : ℤ) (hm : |m| < 2 ^ 24) :
    roundF32 ((m : ℚ) * 2 ^ k) = (m : ℚ) * 2 ^ k := by
  by_cases h0 : m = 0
  · subst h0
    simp [roundF32]
  have hmq : (0 : ℚ) < |(m : ℚ)| := abs_pos.2 (by exact_mod_cast h0)
  have hone : (1 : ℚ) ≤ |(m : ℚ)| := by
    have : (1 : ℤ) ≤ |m| := Int.one_le_abs h0
    exact_mod_cast this
  have hj1 : (2 : ℚ) ^ Int.log 2 |(m : ℚ)| ≤ |(m : ℚ)| := by
    have := @Int.zpow_log_le_self ℚ _ _ 2 _ (by norm_num) hmq
    exact_mod_cast this
  have hj2 : |(m : ℚ)| < (2 : ℚ) ^ (Int.log 2 |(m : ℚ)| + 1) := by
    have := @Int.lt_zpow_succ_log_self ℚ _ _ 2 (by norm_num) |(m : ℚ)|
    exact_mod_cast this
  have hj0 : 0 ≤ Int.log 2 |(m : ℚ)| :=
    (Int.zpow_le_iff_le_log (by norm_num) hmq).1 (by simpa using hone)
  have hm24 : |(m : ℚ)| < (2 : ℚ) ^ (24 : ℤ) := by
    have : ((|m| : ℤ) : ℚ) < ((2 ^ 24 : ℤ) : ℚ) := by exact_mod_cast hm
    rw [Int.cast_abs] at this
    norm_num at this ⊢
    exact this
  have hj23 : Int.log 2 |(m : ℚ)| ≤ 23 := by
    have hlt : (2 : ℚ) ^ Int.log 2 |(m : ℚ)| < 2 ^ (24 : ℤ) := lt_of_le_of_lt hj1 hm24
    have := (zpow_lt_zpow_iff_right₀ (by norm_num : (1 : ℚ) < 2)).1 hlt
    omega
  generalize Int.log 2 |(m : ℚ)| = j at hj1 hj2 hj0 hj23
  obtain ⟨d, hd⟩ : ∃ d : ℕ, (d : ℤ) = 23 - j := ⟨(23 - j).toNat, Int.toNat_of_nonneg (by omega)⟩
  have hx1 : (2 : ℚ) ^ (j + k) ≤ |(m : ℚ) * 2 ^ k| := by
    rw [abs_mul, abs_of_pos (two_zpow_pos k), zpow_add₀ (by norm_num)]
    exact mul_le_mul_of_nonneg_right hj1 (two_zpow_pos k).le
  have hx2 : |(m : ℚ) * 2 ^ k| < 2 ^ (j + k + 1) := by
    rw [abs_mul, abs_of_pos (two_zpow_pos k), show j + k + 1 = (j + 1) + k by ring,
      zpow_add₀ (by norm_num)]
    exact mul_lt_mul_of_pos_right hj2 (two_zpow_pos k)
  have hy : (m : ℚ) * 2 ^ k / 2 ^ (j + k - 23) = ((m * 2 ^ d : ℤ) : ℚ) := by
    have e : (2 : ℚ) ^ k / 2 ^ (j + k - 23) = 2 ^ (23 - j) := by
      rw [← zpow_sub₀ (by norm_num)]
      congr 1
      ring
    push_cast
    rw [← zpow_natCast, hd, mul_div_assoc, e]
  have hn : rne ((m : ℚ) * 2 ^ k / 2 ^ (j + k - 23)) = m * 2 ^ d := by
    rw [hy]
    exact rne_intCast _
  rw [roundF32_eval hx1 hx2 hn]
  have e : (2 : ℚ) ^ (23 - j) * 2 ^ (j + k - 23) = 2 ^ k := by
    rw [← zpow_add₀ (by norm_num)]
    congr 1
    ring
  push_cast
  rw [← zpow_natCast, hd, mul_assoc, e]

/-- The result of rounding a non-zero value is a non-zero `float` of the same sign. -/
theorem roundF32_repr {x : ℚ} (hx : x ≠ 0) :
    ∃ m k : ℤ, roundF32 x = (m : ℚ) * 2 ^ k ∧ |m| < 2 ^ 24 ∧
      (0 < x → 0 < m) ∧ (x < 0 → m < 0) := by
  have hax : 0 < |x| := abs_pos.2 hx
  have h1 : (2 : ℚ) ^ Int.log 2 |x| ≤ |x| := by
    have := @Int.zpow_log_le_self ℚ _ _ 2 _ (by norm_num) hax
    exact_mod_cast this
  have h2 : |x| < (2 : ℚ) ^ (Int.log 2 |x| + 1) := by
    have := @Int.lt_zpow_succ_log_self ℚ _ _ 2 (by norm_num) |x|
    exact_mod_cast this
  have hF : roundF32 x
      = (rne (x / 2 ^ (Int.log 2 |x| - 23)) : ℚ) * 2 ^ (Int.log 2 |x| - 23) := by
    unfold roundF32
    rw [if_neg hx]
  generalize Int.log 2 |x| = e at h1 h2 hF
  have hq : (0 : ℚ) < 2 ^ (e - 23) := two_zpow_pos _
  have c23 : (8388608 : ℚ) = 2 ^ (23 : ℤ) := by norm_num
  have c24 : (16777216 : ℚ) = 2 ^ (24 : ℤ) := by norm_num
  have e1 : (8388608 : ℚ) * 2 ^ (e - 23) = 2 ^ e := by
    rw [c23, ← zpow_add₀ (by norm_num)]
    congr 1
    ring
  have e2 : (16777216 : ℚ) * 2 ^ (e - 23) = 2 ^ (e + 1) := by
    rw [c24, ← zpow_add₀ (by norm_num)]
    congr 1
    ring
  have e3 : (16777216 : ℚ) * 2 ^ (e - 23) = 8388608 * 2 ^ (e - 22) := by
    rw [c23, c24, ← zpow_add₀ (by norm_num), ← zpow_add₀ (by norm_num)]
    congr 1
    ring
  rcases lt_or_gt_of_ne hx with hneg | hpos
  · rw [abs_of_neg hneg] at h1 h2
    have hy1 : x / 2 ^ (e - 23) ≤ ((-(2 ^ 23) : ℤ) : ℚ) := by
      rw [div_le_iff₀ hq]
      push_cast
      rw [neg_mul, e1]
      linarith
    have hy2 : ((-(2 ^ 24) : ℤ) : ℚ) ≤ x / 2 ^ (e - 23) := by
      rw [le_div_iff₀ hq]
      push_cast
      rw [neg_mul, e2]
      linarith
    have hn1 := rne_le hy1
    have hn2 := le_rne hy2
    by_cases hn : rne (x / 2 ^ (e - 23)) = -(2 ^ 24)
    · refine ⟨-(2 ^ 23), e - 22, ?_, by norm_num, fun h => absurd h (not_lt.2 hneg.le),
        fun _ => by norm_num⟩
      rw [hF, hn]
      push_cast
      rw [neg_mul, neg_mul, e3]
    · refine ⟨rne (x / 2 ^ (e - 23)), e - 23, hF, ?_, fun h => absurd h (not_lt.2 hneg.le),
        fun _ => by omega⟩
      rw [abs_lt]
      constructor <;> omega
  · rw [abs_of_pos hpos] at h1 h2
    have hy1 : (((2 ^ 23 : ℤ)) : ℚ) ≤ x / 2 ^ (e - 23) := by
      rw [le_div_iff₀ hq]
      push_cast
      rw [e1]
      exact h1
    have hy2 : x / 2 ^ (e - 23) ≤ (((2 ^ 24 : ℤ)) : ℚ) := by
      rw [div_le_iff₀ hq]
      push_cast
      rw [e2]
      exact h2.le
    have hn1 := le_rne hy1
    have hn2 := rne_le hy2
    by_cases hn : rne (x / 2 ^ (e - 23)) = 2 ^ 24
    · refine ⟨2 ^ 23, e - 22, ?_, by norm_num, fun _ => by norm_num,
        fun h => absurd h (not_lt.2 hpos.le)⟩
      rw [hF, hn]
      push_cast
      rw [e3]
    · refine ⟨rne (x / 2 ^ (e - 23)), e - 23, hF, ?_, fun _ => by omega,
        fun h => absurd h (not_lt.2 hpos.le)⟩
      rw [abs_lt]
      constructor <;> omega

theorem roundF32_zero : roundF32 0 = 0 := by
  simp [roundF32]

/-- Rounding is idempotent: the result of a rounding is a `float`. -/
theorem roundF32_idem (x : ℚ) : roundF32 (roundF32 x) = roundF32 x := by
  by_cases hx : x = 0
  · rw [hx, roundF32_zero, roundF32_zero]
  · obtain ⟨m, k, hF, hm, _, _⟩ := roundF32_repr hx
    rw [hF, roundF32_exact m k hm]

theorem roundF32_pos {x : ℚ} (hx : 0 < x) : 0 < roundF32 x := by
  obtain ⟨m, k, hF, _, hp, _⟩ := roundF32_repr hx.ne'
  rw [hF]
  exact mul_pos (by exact_mod_cast hp hx) (two_zpow_pos k)

theorem roundF32_neg {x : ℚ} (hx : x < 0) : roundF32 x < 0 := by
  obtain ⟨m, k, hF, _, _, hn⟩ := roundF32_repr hx.ne
  rw [hF]
  exact mul_neg_of_neg_of_pos (by exact_mod_cast hn hx) (two_zpow_pos k)

/-- The sum of a `float` with itself is a `float`. -/
theorem roundF32_double (x : ℚ) :
    roundF32 (roundF32 x + roundF32 x) = roundF32 x + roundF32 x := by
  by_cases hx : x = 0
  · rw [hx, roundF32_zero, add_zero, roundF32_zero]
  · obtain ⟨m, k, hF, hm, _, _⟩ := roundF32_repr hx
    have e : roundF32 x + roundF32 x = (m : ℚ) * 2 ^ (k + 1) := by
      rw [hF, zpow_add₀ (by norm_num)]
      ring
    rw [e, roundF32_exact m (k + 1) hm]

theorem roundF32_intCast (m : ℤ) (hm : |m| < 2 ^ 24) : roundF32 (m : ℚ) = m := by
  have := roundF32_exact m 0 hm
  simpa using this

theorem roundF32_one : roundF32 1 = 1 := by
  have := roundF32_intCast 1 (by norm_num)
  simpa using this

theorem floor_le_rne (y : ℚ) : ⌊y⌋ ≤ rne y := by
  rcases rne_cases y with h | ⟨h, _⟩
  · rw [h]
  · rw [h]
    omega

theorem rne_le_floor_succ (y : ℚ) : rne y ≤ ⌊y⌋ + 1 := by
  rcases rne_cases y with h | ⟨h, _⟩
  · rw [h]
    omega
  · rw [h]

theorem rne_mono {y1 y2 : ℚ} (h : y1 ≤ y2) : rne y1 ≤ rne y2 := by
  have hf : ⌊y1⌋ ≤ ⌊y2⌋ := Int.floor_mono h
  rcases lt_or_eq_of_le hf with hlt | heq
  · have a := rne_le_floor_succ y1
    have b := floor_le_rne y2
    omega
  · unfold rne
    rw [heq]
    have hsub : y1 - ⌊y2⌋ ≤ y2 - ⌊y2⌋ := by linarith
    split_ifs <;> first | omega | linarith

theorem roundF32_form {x : ℚ} (hx : x ≠ 0) :
    roundF32 x = (rne (x / 2 ^ (Int.log 2 |x| - 23)) : ℚ) * 2 ^ (Int.log 2 |x| - 23) := by
  unfold roundF32
  rw [if_neg hx]

theorem zpow_log_le_abs {x : ℚ} (hx : x ≠ 0) : (2 : ℚ) ^ Int.log 2 |x| ≤ |x| := by
  have := @Int.zpow_log_le_self ℚ _ _ 2 _ (by norm_num) (abs_pos.2 hx)
  exact_mod_cast this

theorem abs_lt_zpow_log_succ (x : ℚ) : |x| < (2 : ℚ) ^ (Int.log 2 |x| + 1) := by
  have := @Int.lt_zpow_succ_log_self ℚ _ _ 2 (by norm_num) |x|
  exact_mod_cast this

/-- A positive value rounds to a value between the two powers of two around it. -/
theorem roundF32_bounds_pos {x : ℚ} (hx : 0 < x) :
    (2 : ℚ) ^ Int.log 2 |x| ≤ roundF32 x ∧ roundF32 x ≤ 2 ^ (Int.log 2 |x| + 1) := by
  have h1 := zpow_log_le_abs hx.ne'
  have h2 := abs_lt_zpow_log_succ x
  rw [roundF32_form hx.ne']
  rw [abs_of_pos hx] at h1 h2 ⊢
  generalize Int.log 2 x = e at h1 h2 ⊢
  have hq : (0 : ℚ) < 2 ^ (e - 23) := two_zpow_pos _
  have c23 : (8388608 : ℚ) = 2 ^ (23 : ℤ) := by norm_num
  have c24 : (16777216 : ℚ) = 2 ^ (24 : ℤ) := by norm_num
  have e1 : (8388608 : ℚ) * 2 ^ (e - 23) = 2 ^ e := by
    rw [c23, ← zpow_add₀ (by norm_num)]
    congr 1
    ring
  have e2 : (16777216 : ℚ) * 2 ^ (e - 23) = 2 ^ (e + 1) := by
    rw [c24, ← zpow_add₀ (by norm_num)]
    congr 1
    ring
  have hy1 : (((8388608 : ℤ)) : ℚ) ≤ x / 2 ^ (e - 23) := by
    rw [le_div_iff₀ hq]
    push_cast
    rw [e1]
    exact h1
  have hy2 : x / 2 ^ (e - 23) ≤ (((16777216 : ℤ)) : ℚ) := by
    rw [div_le_iff₀ hq]
    push_cast
    rw [e2]
    exact h2.le
  have hn1 : ((8388608 : ℤ) : ℚ) ≤ (rne (x / 2 ^ (e - 23)) : ℚ) := by
    exact_mod_cast le_rne hy1
  have hn2 : (rne (x / 2 ^ (e - 23)) : ℚ) ≤ ((16777216 : ℤ) : ℚ) := by
    exact_mod_cast rne_le hy2
  push_cast at hn1 hn2
  constructor
  · rw [← e1]
    exact mul_le_mul_of_nonneg_right hn1 hq.le
  · rw [← e2]
    exact mul_le_mul_of_nonneg_right hn2 hq.le

theorem roundF32_mono_pos {x y : ℚ} (hx : 0 < x) (hxy : x ≤ y) : roundF32 x ≤ roundF32 y := by
  have hy : 0 < y := lt_of_lt_of_le hx hxy
  have hlog : Int.log 2 |x| ≤ Int.log 2 |y| := by
    rw [abs_of_pos hx, abs_of_pos hy]
    exact Int.log_mono_right hx hxy
  rcases lt_or_eq_of_le hlog with hlt | heq
  · have bx := (roundF32_bounds_pos hx).2
    have by_ := (roundF32_bounds_pos hy).1
    have : (2 : ℚ) ^ (Int.log 2 |x| + 1) ≤ 2 ^ Int.log 2 |y| :=
      zpow_le_zpow_right₀ (by norm_num) (by omega)
    linarith
  · rw [roundF32_form hx.ne', roundF32_form hy.ne', heq]
    have hq : (0 : ℚ) < 2 ^ (Int.log 2 |y| - 23) := two_zpow_pos _
    have hdiv : x / 2 ^ (Int.log 2 |y| - 23) ≤ y / 2 ^ (Int.log 2 |y| - 23) :=
      div_le_div_of_nonneg_right hxy hq.le
    have := rne_mono hdiv
    exact mul_le_mul_of_nonneg_right (by exact_mod_cast this) hq.le

theorem rne_opp (y : ℚ) : rne (-y) = -rne y := by
  have hf1 : ((⌊y⌋ : ℤ) : ℚ) ≤ y := Int.floor_le y
  have hf2 : y < ((⌊y⌋ : ℤ) : ℚ) + 1 := Int.lt_floor_add_one y
  rcases lt_trichotomy (y - ⌊y⌋) (1 / 2) with h | h | h
  · rw [rne_of_lt_half ⌊y⌋ y hf1 h]
    rcases eq_or_lt_of_le hf1 with h0 | h0
    · have : -y = ((-⌊y⌋ : ℤ) : ℚ) := by
        push_cast
        linarith
      rw [this, rne_intCast]
    · have := rne_of_half_lt (-⌊y⌋ - 1) (-y) (by push_cast; linarith) (by push_cast; linarith)
      rw [this]
      ring
  · have hfl : ⌊-y⌋ = -⌊y⌋ - 1 := by
      rw [Int.floor_eq_iff]
      constructor
      · push_cast
        linarith
      · push_cast
        linarith
    have hfr : -y - ((-⌊y⌋ - 1 : ℤ) : ℚ) = 1 / 2 := by
      push_cast
      linarith
    unfold rne
    rw [hfl, hfr, h]
    norm_num
    split_ifs <;> omega
  · rw [rne_of_half_lt ⌊y⌋ y h hf2]
    have := rne_of_lt_half (-⌊y⌋ - 1) (-y) (by push_cast; linarith) (by push_cast; linarith)
    rw [this]
    ring

theorem roundF32_opp (x : ℚ) : roundF32 (-x) = -roundF32 x := by
  by_cases hx : x = 0
  · subst hx
    simp [roundF32_zero]
  · rw [roundF32_form hx, roundF32_form (neg_ne_zero.2 hx), abs_neg, neg_div, rne_opp]
    push_cast
    ring

/-- Rounding to binary32 is monotone. -/
theorem roundF32_mono {x y : ℚ} (hxy : x ≤ y) : roundF32 x ≤ roundF32 y := by
  rcases lt_trichotomy 0 x with hx | hx | hx
  · exact roundF32_mono_pos hx hxy
  · subst hx
    rw [roundF32_zero]
    rcases eq_or_lt_of_le hxy with h | h
    · rw [← h, roundF32_zero]
    · exact (roundF32_pos h).le
  · rcases lt_trichotomy 0 y with hy | hy | hy
    · exact le_trans (roundF32_neg hx).le (roundF32_pos hy).le
    · subst hy
      rw [roundF32_zero]
      exact (roundF32_neg hx).le
    · have h := roundF32_mono_pos (neg_pos.2 hy) (neg_le_neg hxy)
      rw [roundF32_opp, roundF32_opp] at h
      linarith

theorem roundF32_nonneg {x : ℚ} (hx : 0 ≤ x) : 0 ≤ roundF32 x := by
  have := roundF32_mono hx
  rwa [roundF32_zero] at this

/-- A float below a value stays below its rounding. -/
theorem le_roundF32 {f x : ℚ} (hf : roundF32 f = f) (h : f ≤ x) : f ≤ roundF32 x := by
  rw [← hf]
  exact roundF32_mono h

/-- Values of `roundF32` on numerals below `2^24`. -/
theorem roundF32_ofNat (n : ℕ) [n.AtLeastTwo] (h : n < 16777216) :
    roundF32 (no_index (OfNat.ofNat n) : ℚ) = OfNat.ofNat n := by
  have := roundF32_intCast (n : ℤ) (by rw [abs_of_nonneg (by positivity)]; exact_mod_cast h)
  simpa using this

/-! ## Geometry: auxiliary facts -/

theorem overlap1D_same {lo hi : ℚ} (h : ¬ hi < lo) : overlap1D lo hi lo hi = fsub hi lo := by
  unfold overlap1D
  rw [if_neg (lt_irrefl lo), if_neg h, min_self]

theorem roundF32_sampleF_width : roundF32 (65537 / 65536) = 65537 / 65536 := by
  have h := roundF32_exact 65537 (-16) (by norm_num)
  norm_num at h
  exact h

theorem roundF32_sampleF_right : roundF32 (33619969 / 65536) = 513 := by
  have h := @roundF32_eval (33619969 / 65536) 9 8404992 (by norm_num [abs_of_pos])
    (by norm_num [abs_of_pos]) (rne_of_lt_half _ _ (by norm_num) (by norm_num))
  rw [h]
  norm_num

theorem roundF32_sampleF_area2 : roundF32 (65537 / 32768) = 65537 / 32768 := by
  have h := roundF32_exact 65537 (-15) (by norm_num)
  norm_num at h
  exact h

theorem roundF32_sampleF_union : roundF32 (32769 / 32768) = 32769 / 32768 := by
  have h := roundF32_exact 32769 (-15) (by norm_num)
  norm_num at h
  exact h

theorem roundF32_sampleF_quotient : roundF32 (32768 / 32769) = 32767 / 32768 := by
  have h := @roundF32_eval (32768 / 32769) (-1) 16776704 (by norm_num [abs_of_pos])
    (by norm_num [abs_of_pos]) (rne_of_lt_half _ _ (by norm_num) (by norm_num))
  rw [h]
  norm_num

/-! ## Geometry: the claims -/

/-- Claim C10, as stated, fails: the box with `left = 512`, `width = 1 + 2^-16`, `height = 1`
has all its fields in `float`, width and height positive, and `computeIoU` of it with itself is
`32767 / 32768`.  The sum `left + width` rounds to `513`, so the horizontal overlap is `1`, less
than the width, while both areas are computed from the width. -/
theorem computeIoU_self_below_one :
    readF32 sampleF.left = sampleF.left ∧ readF32 sampleF.top = sampleF.top ∧
    readF32 sampleF.width = sampleF.width ∧ readF32 sampleF.height = sampleF.height ∧
    0 < sampleF.width ∧ 0 < sampleF.height ∧
    computeIoU sampleF sampleF = 32767 / 32768 ∧ computeIoU sampleF sampleF ≠ 1 := by
  have hv : computeIoU sampleF sampleF = 32767 / 32768 := by
    norm_num [computeIoU, overlap1D, fadd, fsub, fmul, fdiv, readF32, sampleF,
      roundF32_ofNat, roundF32_zero, roundF32_one, roundF32_sampleF_width,
      roundF32_sampleF_right, roundF32_sampleF_area2, roundF32_sampleF_union,
      roundF32_sampleF_quotient]
  refine ⟨?_, ?_, ?_, ?_, ?_, ?_, hv, ?_⟩
  · norm_num [readF32, sampleF, roundF32_ofNat]
  · norm_num [readF32, sampleF, roundF32_zero]
  · norm_num [readF32, sampleF, roundF32_sampleF_width]
  · norm_num [readF32, sampleF, roundF32_one]
  · norm_num [sampleF]
  · norm_num [sampleF]
  · rw [hv]
    norm_num

/-- Claim C10, amended: for every box whose `left` and `top` are `float` values, whose width and
height lie in `[1, 2^32]`, and whose width and height are recovered exactly from the `float`
corners (`(left + width) - left = width` and `(top + height) - top = height` in `float`
arithmetic), `computeIoU b b = 1`.  The bounds on width and height keep the area and the
union inside the exponent range of `float`, where `roundF32` is the program's rounding; the
proof needs only that both are positive. -/
theorem computeIoU_self (b : NvDsInferParseObjectInfo)
    (hl : roundF32 b.left = b.left) (ht : roundF32 b.top = b.top)
    (hw : 1 ≤ b.width) (_hw2 : b.width ≤ 2 ^ 32)
    (hh : 1 ≤ b.height) (_hh2 : b.height ≤ 2 ^ 32)
    (hx : fsub (fadd b.left b.width) b.left = b.width)
    (hy : fsub (fadd b.top b.height) b.top = b.height) :
    computeIoU b b = 1 := by
  have hwf : roundF32 b.width = b.width := by
    rw [← hx]
    exact roundF32_idem _
  have hhf : roundF32 b.height = b.height := by
    rw [← hy]
    exact roundF32_idem _
  have hX : ¬ fadd b.left b.width < b.left := by
    intro hlt
    have : fsub (fadd b.left b.width) b.left < 0 := roundF32_neg (by linarith)
    rw [hx] at this
    linarith
  have hY : ¬ fadd b.top b.height < b.top := by
    intro hlt
    have : fsub (fadd b.top b.height) b.top < 0 := roundF32_neg (by linarith)
    rw [hy] at this
    linarith
  have hpos : 0 < roundF32 (b.width * b.height) :=
    roundF32_pos (mul_pos (by linarith) (by linarith))
  simp only [computeIoU, readF32, hl, ht, hwf, hhf, overlap1D_same hX, overlap1D_same hY, hx, hy]
  have hu : fsub (fadd (fmul b.width b.height) (fmul b.width b.height)) (fmul b.width b.height)
      = fmul b.width b.height := by
    unfold fsub fadd fmul
    rw [roundF32_double, add_sub_cancel_right, roundF32_idem]
  rw [hu]
  unfold fmul fdiv
  rw [if_neg hpos.ne', div_self hpos.ne', roundF32_one]

/-- Witness for C10: a box with a negative `top`. -/
theorem computeIoU_self_witness :
    computeIoU ⟨0, 3, -7, 2, 5, 1 / 2⟩ ⟨0, 3, -7, 2, 5, 1 / 2⟩ = 1 :=
  computeIoU_self ⟨0, 3, -7, 2, 5, 1 / 2⟩ (by norm_num [roundF32_ofNat])
    (by norm_num [roundF32_opp, roundF32_ofNat]) (by norm_num) (by norm_num) (by norm_num)
    (by norm_num) (by norm_num [fadd, fsub, roundF32_ofNat])
    (by norm_num [fadd, fsub, roundF32_opp, roundF32_ofNat])

/-! ## Non-maximum suppression: auxiliary facts -/

theorem keepLoop_false (t : ℚ) (i : NvDsInferParseObjectInfo)
    (out : List NvDsInferParseObjectInfo) : keepLoop t i false out = false := by
  cases out <;> simp [keepLoop]

theorem keepLoop_true_iff (t : ℚ) (i : NvDsInferParseObjectInfo)
    (out : List NvDsInferParseObjectInfo) :
    keepLoop t i true out = true ↔ ∀ j ∈ out, computeIoU i j ≤ t := by
  induction out with
  | nil => simp [keepLoop]
  | cons j rest ih =>
    by_cases h : computeIoU i j ≤ t
    · simp [keepLoop, h, ih]
    · simp [keepLoop, h, keepLoop_false]

theorem nmsLoop_accepted (t : ℚ) (rest out : List NvDsInferParseObjectInfo)
    (h : Accepted t out) : Accepted t (nmsLoop t rest out) := by
  induction rest generalizing out with
  | nil => simpa [nmsLoop] using h
  | cons i rest ih =>
    rw [nmsLoop]
    apply ih
    split
    · rename_i hk
      rw [keepLoop_true_iff] at hk
      unfold Accepted at h ⊢
      rw [List.pairwise_append]
      exact ⟨h, List.pairwise_singleton _ _, fun a ha b hb => by
        rw [List.mem_singleton] at hb
        subst hb
        exact hk a ha⟩
    · exact h

theorem nmsLoop_sublist (t : ℚ) (rest out : List NvDsInferParseObjectInfo) :
    ∃ kept, kept.Sublist rest ∧ nmsLoop t rest out = out ++ kept := by
  induction rest generalizing out with
  | nil => exact ⟨[], List.Sublist.refl _, by simp [nmsLoop]⟩
  | cons i rest ih =>
    rw [nmsLoop]
    split
    · obtain ⟨kept, hs, he⟩ := ih (out ++ [i])
      exact ⟨i :: kept, hs.cons₂ i, by rw [he]; simp⟩
    · obtain ⟨kept, hs, he⟩ := ih out
      exact ⟨kept, hs.cons i, he⟩

theorem nmsLoop_of_accepted (t : ℚ) (rest out : List NvDsInferParseObjectInfo)
    (h : Accepted t (out ++ rest)) : nmsLoop t rest out = out ++ rest := by
  induction rest generalizing out with
  | nil => simp [nmsLoop]
  | cons i rest ih =>
    have hk : keepLoop t i true out = true := by
      rw [keepLoop_true_iff]
      intro j hj
      unfold Accepted at h
      rw [List.pairwise_append] at h
      exact h.2.2 j hj i (List.mem_cons_self _ _)
    rw [nmsLoop, if_pos hk, ih (out ++ [i]) (by simpa using h)]
    simp

theorem nonMaximumSuppression_sublist (t : ℚ) (binfo : List NvDsInferParseObjectInfo) :
    (nonMaximumSuppression t binfo).Sublist (stableSortDesc binfo) := by
  obtain ⟨kept, hs, he⟩ := nmsLoop_sublist t (stableSortDesc binfo) []
  unfold nonMaximumSuppression
  rw [he]
  simpa using hs

theorem nonMaximumSuppression_accepted (t : ℚ) (binfo : List NvDsInferParseObjectInfo) :
    Accepted t (nonMaximumSuppression t binfo) :=
  nmsLoop_accepted t _ [] List.Pairwise.nil

theorem nonMaximumSuppression_sorted (t : ℚ) (binfo : List NvDsInferParseObjectInfo) :
    (nonMaximumSuppression t binfo).Sorted confGE :=
  List.Pairwise.sublist (nonMaximumSuppression_sublist t binfo)
    (List.sorted_insertionSort confGE binfo)

theorem mem_of_mem_nonMaximumSuppression {t : ℚ} {binfo : List NvDsInferParseObjectInfo}
    {b : NvDsInferParseObjectInfo} (h : b ∈ nonMaximumSuppression t binfo) : b ∈ binfo :=
  (List.mem_insertionSort confGE).1 ((nonMaximumSuppression_sublist t binfo).subset h)

theorem nonMaximumSuppression_idem (t : ℚ) (binfo : List NvDsInferParseObjectInfo) :
    nonMaximumSuppression t (nonMaximumSuppression t binfo) = nonMaximumSuppression t binfo := by
  have hs := nonMaximumSuppression_sorted t binfo
  have ha := nonMaximumSuppression_accepted t binfo
  generalize nonMaximumSuppression t binfo = out at hs ha
  unfold nonMaximumSuppression stableSortDesc
  rw [List.Sorted.insertionSort_eq hs, nmsLoop_of_accepted t out [] (by simpa using ha)]
  simp

theorem nonMaximumSuppression_nil (t : ℚ) : nonMaximumSuppression t [] = [] := by
  simp [nonMaximumSuppression, stableSortDesc, nmsLoop]

theorem pushSplit_buckets (n : Nat) (binfo : List NvDsInferParseObjectInfo)
    (b : NvDsInferParseObjectInfo) (hb : b.classId < n) :
    pushSplit (buckets n binfo) b = some (buckets n (binfo ++ [b])) := by
  unfold pushSplit
  rw [if_pos (by simpa [buckets] using hb)]
  congr 1
  apply List.ext_getElem?
  intro m
  rw [List.getElem?_modify]
  by_cases hm : m < n
  · by_cases hc : b.classId = m
    · simp [buckets, ofClass, hm, hc, List.filter_append]
    · have hc2 : ¬ (m = b.classId) := fun h => hc h.symm
      simp [buckets, ofClass, hm, hc, List.filter_append]
  · have h1 : (buckets n binfo)[m]? = none := by
      simp [buckets] ; omega
    have h2 : (buckets n (binfo ++ [b]))[m]? = none := by
      simp [buckets] ; omega
    rw [h1, h2]
    rfl

theorem foldlM_pushSplit (n : Nat) (binfo : List NvDsInferParseObjectInfo)
    (h : ∀ b ∈ binfo, b.classId < n) :
    binfo.foldlM pushSplit (List.replicate n []) = some (buckets n binfo) := by
  induction binfo using List.reverseRecOn with
  | nil =>
    simp only [List.foldlM_nil, buckets, ofClass, List.filter_nil]
    congr 1
    apply List.ext_getElem?
    intro m
    by_cases hm : m < n <;> simp [hm, List.getElem?_replicate]
  | append_singleton l b ih =>
    rw [List.foldlM_append, ih (fun x hx => h x (List.mem_append_left _ hx))]
    simp only [List.foldlM_cons, List.foldlM_nil, Option.some_bind, Option.bind_eq_bind]
    rw [pushSplit_buckets n l b (h b (by simp))]
    rfl

theorem foldl_append_eq_flatMap {α β : Type} (f : α → List β) (l : List α) (init : List β) :
    l.foldl (fun result a => result ++ f a) init = init ++ l.flatMap f := by
  induction l generalizing init with
  | nil => simp
  | cons a l ih => simp [ih]

/-- With every class label in range, `nmsAllClasses` does not throw and returns the
concatenation, in class order, of the suppressed class buckets. -/
theorem nmsAllClasses_eq (t : ℚ) (binfo : List NvDsInferParseObjectInfo) (n : Nat)
    (h : ∀ b ∈ binfo, b.classId < n) :
    nmsAllClasses t binfo n =
      some ((List.range n).flatMap (fun c => nonMaximumSuppression t (ofClass c binfo))) := by
  unfold nmsAllClasses
  rw [foldlM_pushSplit n binfo h]
  simp only [foldl_append_eq_flatMap, buckets, List.nil_append, List.flatMap_map]

theorem classId_of_mem_nms_ofClass {t : ℚ} {binfo : List NvDsInferParseObjectInfo} {c : Nat}
    {b : NvDsInferParseObjectInfo} (h : b ∈ nonMaximumSuppression t (ofClass c binfo)) :
    b ∈ binfo ∧ b.classId = c := by
  have := mem_of_mem_nonMaximumSuppression h
  simpa [ofClass] using this

/-- Filtering a concatenation of per-class blocks by class gives back that class's block. -/
theorem ofClass_flatMap_range (G : Nat → List NvDsInferParseObjectInfo)
    (hG : ∀ c, ∀ b ∈ G c, b.classId = c) (n c : Nat) :
    ofClass c ((List.range n).flatMap G) = if c < n then G c else [] := by
  induction n with
  | zero => simp [ofClass]
  | succ n ih =>
    have hsplit : ofClass c ((List.range (n + 1)).flatMap G)
        = ofClass c ((List.range n).flatMap G) ++ ofClass c (G n) := by
      simp [ofClass, List.range_succ, List.flatMap_append, List.filter_append]
    rw [hsplit, ih]
    by_cases hcn : c = n
    · subst hcn
      have : ofClass c (G c) = G c := by
        unfold ofClass
        rw [List.filter_eq_self]
        intro b hb
        simpa using hG c b hb
      simp [this]
    · have : ofClass c (G n) = [] := by
        unfold ofClass
        rw [List.filter_eq_nil_iff]
        intro b hb
        have := hG n b hb
        simp only [decide_eq_true_eq]
        omega
      rw [this]
      by_cases h1 : c < n
      · simp [h1, Nat.lt_succ_of_lt h1]
      · have h2 : ¬ c < n + 1 := by omega
        simp [h1, h2]

theorem pairwise_getElem? {α : Type} {R : α → α → Prop} {l : List α} (h : l.Pairwise R)
    {p q : Nat} {x y : α} (hpq : p < q) (hx : l[p]? = some x) (hy : l[q]? = some y) : R x y := by
  obtain ⟨hp, rfl⟩ := List.getElem?_eq_some.1 hx
  obtain ⟨hq, rfl⟩ := List.getElem?_eq_some.1 hy
  exact List.pairwise_iff_getElem.1 h p q hp hq hpq

/-- A successful bucketing run means that every class label was in range. -/
theorem classId_lt_of_foldlM_pushSplit (binfo : List NvDsInferParseObjectInfo) :
    ∀ (S S2 : List (List NvDsInferParseObjectInfo)),
      binfo.foldlM pushSplit S = some S2 → ∀ b ∈ binfo, b.classId < S.length := by
  induction binfo with
  | nil => intro S S2 _ b hb; simp at hb
  | cons a l ih =>
    intro S S2 h b hb
    rw [List.foldlM_cons] at h
    by_cases ha : a.classId < S.length
    · have hp : pushSplit S a = some (S.modify (fun boxes => boxes ++ [a]) a.classId) := by
        simp [pushSplit, ha]
      rw [hp] at h
      simp only [Option.some_bind, Option.bind_eq_bind] at h
      rcases List.mem_cons.1 hb with rfl | hb
      · exact ha
      · simpa using ih _ S2 h b hb
    · have hp : pushSplit S a = none := by simp [pushSplit, ha]
      rw [hp] at h
      simp at h

theorem classId_lt_of_nmsAllClasses {t : ℚ} {binfo out : List NvDsInferParseObjectInfo}
    {n : Nat} (h : nmsAllClasses t binfo n = some out) : ∀ b ∈ binfo, b.classId < n := by
  unfold nmsAllClasses at h
  split at h
  · simp at h
  · rename_i S hS
    simpa using classId_lt_of_foldlM_pushSplit binfo _ S hS

/-- The class-`c` part of the output of `nmsAllClasses` is the suppressed class-`c` part of
its input. -/
theorem ofClass_nmsAllClasses (t : ℚ) (binfo : List NvDsInferParseObjectInfo) (n : Nat)
    (h : ∀ b ∈ binfo, b.classId < n) (c : Nat) :
    ofClass c ((List.range n).flatMap (fun c => nonMaximumSuppression t (ofClass c binfo)))
      = nonMaximumSuppression t (ofClass c binfo) := by
  rw [ofClass_flatMap_range (fun c => nonMaximumSuppression t (ofClass c binfo))
    (fun c b hb => (classId_of_mem_nms_ofClass hb).2) n c]
  split
  · rfl
  · rename_i hc
    have : ofClass c binfo = [] := by
      unfold ofClass
      rw [List.filter_eq_nil_iff]
      intro b hb
      have := h b hb
      simp only [decide_eq_true_eq]
      omega
    rw [this, nonMaximumSuppression_nil]

theorem mem_of_mem_nmsAllClasses {t : ℚ} {binfo out : List NvDsInferParseObjectInfo}
    {n : Nat} (h : nmsAllClasses t binfo n = some out) : ∀ b ∈ out, b ∈ binfo := by
  have hr := classId_lt_of_nmsAllClasses h
  rw [nmsAllClasses_eq t binfo n hr] at h
  injection h with h
  subst h
  intro b hb
  obtain ⟨c, _, hc⟩ := List.mem_flatMap.1 hb
  exact (classId_of_mem_nms_ofClass hc).1

/-- If each class's part of a list satisfies the acceptance rule, then any two same-class
elements of the list do. -/
theorem sameClass_pairwise (t : ℚ) (out : List NvDsInferParseObjectInfo)
    (h : ∀ c, Accepted t (ofClass c out)) :
    out.Pairwise (fun x y => x.classId = y.classId → computeIoU y x ≤ t) := by
  induction out with
  | nil => exact List.Pairwise.nil
  | cons x tail ih =>
    refine List.Pairwise.cons ?_ (ih fun c => ?_)
    · intro y hy hxy
      have hc := h x.classId
      unfold Accepted ofClass at hc
      rw [List.filter_cons, if_pos (by simp), List.pairwise_cons] at hc
      exact hc.1 y (List.mem_filter.2 ⟨hy, by simpa using hxy.symm⟩)
    · have hc := h c
      unfold Accepted ofClass at hc ⊢
      exact List.Pairwise.sublist
        (List.Sublist.filter _ (List.sublist_cons_self x tail)) hc

theorem overlap1D_comm {a1 a2 b1 b2 : ℚ} (ha : a1 ≤ a2) (hb : b1 ≤ b2) :
    overlap1D a1 a2 b1 b2 = overlap1D b1 b2 a1 a2 := by
  unfold overlap1D
  rcases lt_trichotomy a1 b1 with h | h | h
  · rw [if_neg (not_lt.2 h.le), if_pos h]
  · subst h
    simp [not_lt.2 ha, not_lt.2 hb, min_comm]
  · rw [if_pos h, if_neg (not_lt.2 h.le)]

/-- The right corner `left + width` computed in `float` is not left of `left` when the width is
not negative. -/
theorem readF32_le_fadd (l : ℚ) {w : ℚ} (hw : 0 ≤ w) :
    readF32 l ≤ fadd (readF32 l) (readF32 w) := by
  unfold fadd readF32
  exact le_roundF32 (roundF32_idem l) (by linarith [roundF32_nonneg hw])

theorem computeIoU_comm {a b : NvDsInferParseObjectInfo}
    (haw : 0 ≤ a.width) (hah : 0 ≤ a.height) (hbw : 0 ≤ b.width) (hbh : 0 ≤ b.height) :
    computeIoU a b = computeIoU b a := by
  have hx := overlap1D_comm (readF32_le_fadd a.left haw) (readF32_le_fadd b.left hbw)
  have hy := overlap1D_comm (readF32_le_fadd a.top hah) (readF32_le_fadd b.top hbh)
  simp only [computeIoU]
  rw [hx, hy]
  unfold fadd
  rw [add_comm (fmul (readF32 a.width) (readF32 a.height))]

theorem roundF32_nine_elevenths : roundF32 (9 / 11) = 13726813 / 16777216 := by
  have h := @roundF32_eval (9 / 11) (-1) 13726813 (by norm_num [abs_of_pos])
    (by norm_num [abs_of_pos]) (rne_of_lt_half _ _ (by norm_num) (by norm_num))
  rw [h]
  norm_num

theorem computeIoU_sampleBA : computeIoU sampleB sampleA = 0 := by
  norm_num [computeIoU, overlap1D, fadd, fsub, fmul, fdiv, readF32, sampleA, sampleB,
    roundF32_ofNat, roundF32_zero, roundF32_one]

theorem computeIoU_sampleCA : computeIoU sampleC sampleA = 1 := by
  norm_num [computeIoU, overlap1D, fadd, fsub, fmul, fdiv, readF32, sampleA, sampleC,
    roundF32_ofNat, roundF32_zero, roundF32_one]

theorem computeIoU_sampleDA : computeIoU sampleD sampleA = 13726813 / 16777216 := by
  norm_num [computeIoU, overlap1D, fadd, fsub, fmul, fdiv, readF32, sampleA, sampleD,
    roundF32_ofNat, roundF32_zero, roundF32_one, roundF32_nine_elevenths]

theorem computeIoU_sampleAD : computeIoU sampleA sampleD = 13726813 / 16777216 := by
  norm_num [computeIoU, overlap1D, fadd, fsub, fmul, fdiv, readF32, sampleA, sampleD,
    roundF32_ofNat, roundF32_zero, roundF32_one, roundF32_nine_elevenths]

theorem computeIoU_sampleEA : computeIoU sampleE sampleA = 0 := by
  norm_num [computeIoU, overlap1D, fadd, fsub, fmul, fdiv, readF32, sampleA, sampleE,
    roundF32_ofNat, roundF32_zero, roundF32_one]

theorem nonMaximumSuppression_singleton (t : ℚ) (b : NvDsInferParseObjectInfo) :
    nonMaximumSuppression t [b] = [b] := by
  simp [nonMaximumSuppression, stableSortDesc, nmsLoop, keepLoop]

theorem nonMaximumSuppression_sampleAB :
    nonMaximumSuppression beta_nms [sampleA, sampleB] = [sampleA, sampleB] := by
  norm_num [nonMaximumSuppression, stableSortDesc, nmsLoop, keepLoop, confGE, computeIoU,
    overlap1D, fadd, fsub, fmul, fdiv, readF32, roundF32_ofNat, roundF32_zero, roundF32_one,
    roundF32_nine_elevenths, beta_nms, sampleA, sampleB, List.insertionSort, List.orderedInsert]

/-! ## Non-maximum suppression: the claims -/

/-- Claim C3: for every threshold and candidate list, in the output of
`nonMaximumSuppression` the candidate at a position `q` has IoU at most `nmsThresh` against
the candidate at every earlier position `p < q`; consequently, in the output of
`nmsAllClasses`, the same holds for any two candidates of the same class, and for boxes of
non-negative width and height in either argument order. -/
theorem nms_acceptance_rule (nmsThresh : ℚ) (binfo : List NvDsInferParseObjectInfo)
    (numClasses : Nat) :
    (∀ (p q : Nat) (x y : NvDsInferParseObjectInfo), p < q →
      (nonMaximumSuppression nmsThresh binfo)[p]? = some x →
      (nonMaximumSuppression nmsThresh binfo)[q]? = some y →
      computeIoU y x ≤ nmsThresh) ∧
    (∀ out, nmsAllClasses nmsThresh binfo numClasses = some out →
      ∀ (p q : Nat) (x y : NvDsInferParseObjectInfo), p < q →
        out[p]? = some x → out[q]? = some y → x.classId = y.classId →
        computeIoU y x ≤ nmsThresh ∧
        (0 ≤ x.width → 0 ≤ x.height → 0 ≤ y.width → 0 ≤ y.height →
          computeIoU x y ≤ nmsThresh)) := by
  refine ⟨fun p q x y hpq hx hy =>
    pairwise_getElem? (nonMaximumSuppression_accepted nmsThresh binfo) hpq hx hy, ?_⟩
  intro out hout p q x y hpq hx hy hc
  have hr := classId_lt_of_nmsAllClasses hout
  rw [nmsAllClasses_eq nmsThresh binfo numClasses hr] at hout
  injection hout with hout
  have hpw := sameClass_pairwise nmsThresh out (fun c => by
    rw [← hout, ofClass_nmsAllClasses nmsThresh binfo numClasses hr c]
    exact nonMaximumSuppression_accepted nmsThresh _)
  have hyx : computeIoU y x ≤ nmsThresh := pairwise_getElem? hpw hpq hx hy hc
  exact ⟨hyx, fun h1 h2 h3 h4 => by rw [computeIoU_comm h1 h2 h3 h4]; exact hyx⟩

/-- Witness for C3: with threshold `0.45`, the two disjoint class-0 boxes `sampleA`, `sampleB`
are both output, in this order, and the later one has IoU at most `0.45` against the earlier. -/
theorem nms_acceptance_rule_witness :
    (nonMaximumSuppression beta_nms [sampleA, sampleB])[0]? = some sampleA ∧
    (nonMaximumSuppression beta_nms [sampleA, sampleB])[1]? = some sampleB ∧
    computeIoU sampleB sampleA ≤ beta_nms :=
  ⟨by rw [nonMaximumSuppression_sampleAB]; rfl, by rw [nonMaximumSuppression_sampleAB]; rfl,
    (nms_acceptance_rule beta_nms [sampleA, sampleB] 1).1 0 1 sampleA sampleB (by decide)
      (by rw [nonMaximumSuppression_sampleAB]; rfl)
      (by rw [nonMaximumSuppression_sampleAB]; rfl)⟩

/-- Claim C5: for every candidate list whose class labels are all below `numClasses`,
`nmsAllClasses` returns a list whose class-`c` candidates are, for every `c`, exactly
`nonMaximumSuppression` of the class-`c` candidates of the input in input order; in
particular two candidates with different class labels are both kept, whatever their boxes
(identical ones, of IoU 1, included). -/
theorem nmsAllClasses_cross_class_independence (nmsThresh : ℚ) (numClasses : Nat) :
    (∀ binfo : List NvDsInferParseObjectInfo, (∀ b ∈ binfo, b.classId < numClasses) →
      ∃ out, nmsAllClasses nmsThresh binfo numClasses = some out ∧
        ∀ c, ofClass c out = nonMaximumSuppression nmsThresh (ofClass c binfo)) ∧
    (∀ a b : NvDsInferParseObjectInfo, a.classId < numClasses → b.classId < numClasses →
      a.classId ≠ b.classId →
      ∃ out, nmsAllClasses nmsThresh [a, b] numClasses = some out ∧ a ∈ out ∧ b ∈ out) := by
  have main : ∀ binfo : List NvDsInferParseObjectInfo, (∀ b ∈ binfo, b.classId < numClasses) →
      ∃ out, nmsAllClasses nmsThresh binfo numClasses = some out ∧
        ∀ c, ofClass c out = nonMaximumSuppression nmsThresh (ofClass c binfo) :=
    fun binfo h => ⟨_, nmsAllClasses_eq nmsThresh binfo numClasses h,
      ofClass_nmsAllClasses nmsThresh binfo numClasses h⟩
  refine ⟨main, ?_⟩
  intro a b ha hb hab
  obtain ⟨out, hout, hc⟩ := main [a, b] (by
    intro x hx
    rcases List.mem_cons.1 hx with rfl | hx
    · exact ha
    · rw [List.mem_singleton] at hx
      subst hx
      exact hb)
  refine ⟨out, hout, ?_, ?_⟩
  · have h1 : ofClass a.classId [a, b] = [a] := by
      simp [ofClass, List.filter_cons, Ne.symm hab]
    have h2 := hc a.classId
    rw [h1, nonMaximumSuppression_singleton] at h2
    have : a ∈ ofClass a.classId out := by rw [h2]; exact List.mem_singleton_self a
    exact (List.mem_filter.1 this).1
  · have h1 : ofClass b.classId [a, b] = [b] := by
      simp [ofClass, List.filter_cons, hab]
    have h2 := hc b.classId
    rw [h1, nonMaximumSuppression_singleton] at h2
    have : b ∈ ofClass b.classId out := by rw [h2]; exact List.mem_singleton_self b
    exact (List.mem_filter.1 this).1

/-- Witness for C5: `sampleA` (class 0) and `sampleC` (class 1) have the same box, so their
IoU is 1, and with two classes and threshold `0.45` both are in the output. -/
theorem nmsAllClasses_cross_class_independence_witness :
    computeIoU sampleC sampleA = 1 ∧
    ∃ out, nmsAllClasses beta_nms [sampleA, sampleC] 2 = some out ∧
      sampleA ∈ out ∧ sampleC ∈ out :=
  ⟨computeIoU_sampleCA,
    (nmsAllClasses_cross_class_independence beta_nms 2).2 sampleA sampleC
      (by decide) (by decide) (by decide)⟩

/-- Claim C6: for every threshold, class count and candidate list whose class labels are all
below `numClasses`, `nmsAllClasses` returns a list, and `nmsAllClasses` applied to that list
returns the same list: the output is a fixed point. -/
theorem nmsAllClasses_idempotent (nmsThresh : ℚ) (binfo : List NvDsInferParseObjectInfo)
    (numClasses : Nat) (h : ∀ b ∈ binfo, b.classId < numClasses) :
    ∃ out, nmsAllClasses nmsThresh binfo numClasses = some out ∧
      nmsAllClasses nmsThresh out numClasses = some out := by
  refine ⟨_, nmsAllClasses_eq nmsThresh binfo numClasses h, ?_⟩
  have hr : ∀ b ∈ (List.range numClasses).flatMap
      (fun c => nonMaximumSuppression nmsThresh (ofClass c binfo)), b.classId < numClasses := by
    intro b hb
    obtain ⟨c, _, hc⟩ := List.mem_flatMap.1 hb
    exact h b (classId_of_mem_nms_ofClass hc).1
  rw [nmsAllClasses_eq nmsThresh _ numClasses hr]
  congr 1
  apply List.flatMap_congr
  intro c _
  rw [ofClass_nmsAllClasses nmsThresh binfo numClasses h c, nonMaximumSuppression_idem]

/-- Witness for C6: the list `[sampleD, sampleA, sampleC, sampleB]` with two classes and
threshold `0.45`, in which `sampleD` is suppressed by `sampleA`. -/
theorem nmsAllClasses_idempotent_witness :
    ∃ out, nmsAllClasses beta_nms [sampleD, sampleA, sampleC, sampleB] 2 = some out ∧
      nmsAllClasses beta_nms out 2 = some out :=
  nmsAllClasses_idempotent beta_nms [sampleD, sampleA, sampleC, sampleB] 2 (by decide)

/-! ## The decoder: auxiliary facts -/

theorem scaleFold_apply (index : Nat) (n : Nat) :
    ∀ (s : Nat) (out : Buffer) (idx : Nat), 5 ≤ s →
      (List.range' s n).foldl
        (fun out j => Function.update out (index + j) (out (index + j) * out (index + 4)))
        out idx
      = if index + s ≤ idx ∧ idx < index + s + n then out idx * out (index + 4) else out idx := by
  induction n with
  | zero =>
    intro s out idx _
    rw [if_neg (by omega)]
    rfl
  | succ n ih =>
    intro s out idx hs
    rw [List.range'_succ, List.foldl_cons, ih (s + 1) _ idx (by omega)]
    have h4 : index + 4 ≠ index + s := by omega
    by_cases h1 : idx = index + s
    · subst h1
      have c1 : ¬ (index + (s + 1) ≤ index + s ∧ index + s < index + (s + 1) + n) := by omega
      have c2 : index + s ≤ index + s ∧ index + s < index + s + (n + 1) := by omega
      rw [if_neg c1, if_pos c2, Function.update_same]
    · by_cases h2 : index + (s + 1) ≤ idx ∧ idx < index + (s + 1) + n
      · have c2 : index + s ≤ idx ∧ idx < index + s + (n + 1) := by omega
        rw [if_pos h2, if_pos c2, Function.update_noteq h1, Function.update_noteq h4]
      · have c2 : ¬ (index + s ≤ idx ∧ idx < index + s + (n + 1)) := by omega
        rw [if_neg h2, if_neg c2, Function.update_noteq h1]

/-- The buffer after the scaling loop of one cell. -/
theorem scaleLoop_apply (out : Buffer) (index nc idx : Nat) :
    scaleLoop out index (5 + nc) idx
      = if index + 5 ≤ idx ∧ idx < index + 5 + nc then out idx * out (index + 4)
        else out idx := by
  unfold scaleLoop labelStartIndex confidenceIndex
  rw [Nat.add_sub_cancel_left]
  exact scaleFold_apply index nc 5 out idx le_rfl

theorem addBBoxProposal_eq_append (bx by_ bw bh : ℚ) (netW netH maxIndex : Nat) (maxProb : ℚ)
    (binfo : List NvDsInferParseObjectInfo) :
    addBBoxProposal bx by_ bw bh netW netH maxIndex maxProb binfo
      = binfo ++ addBBoxProposal bx by_ bw bh netW netH maxIndex maxProb [] := by
  simp only [addBBoxProposal]
  split <;> simp

/-- The candidate list after the class loop of one cell. -/
theorem classLoop_eq (out : Buffer) (index nc : Nat) (thr : ℚ) (netW netH : Nat)
    (binfo : List NvDsInferParseObjectInfo) :
    classLoop out index (5 + nc) thr netW netH binfo
      = binfo ++ (List.range nc).flatMap (fun c =>
          if out (index + 5 + c) ≤ thr then []
          else addBBoxProposal (out index) (out (index + 1)) (out (index + 2))
            (out (index + 3)) netW netH c (out (index + 5 + c)) []) := by
  unfold classLoop labelStartIndex
  rw [Nat.add_sub_cancel_left]
  have step : (fun (binfo : List NvDsInferParseObjectInfo) (k : Nat) =>
      if out (index + k) ≤ thr then binfo
      else addBBoxProposal (out index) (out (index + 1)) (out (index + 2))
        (out (index + 3)) netW netH (k - 5) (out (index + k)) binfo)
      = (fun binfo k => binfo ++ (fun k =>
          if out (index + k) ≤ thr then []
          else addBBoxProposal (out index) (out (index + 1)) (out (index + 2))
            (out (index + 3)) netW netH (k - 5) (out (index + k)) []) k) := by
    funext binfo k
    by_cases h : out (index + k) ≤ thr
    · simp [h]
    · simp only [h, if_false]
      exact addBBoxProposal_eq_append _ _ _ _ _ _ _ _ _
  rw [step, foldl_append_eq_flatMap, List.range'_eq_map_range, List.flatMap_map]
  congr 1
  apply List.flatMap_congr
  intro c _
  simp only [Function.comp, Nat.add_sub_cancel_left, Nat.add_assoc]

/-- The candidates of cell `i` in terms of the buffer the loop body starts from: nothing at
or below the gate; otherwise, class by class, a proposal for each class whose score times
the objectness is above the threshold. -/
theorem cellCandidates_eq (buf : Buffer) (nc : Nat) (thr : ℚ) (netW netH i : Nat) :
    cellCandidates buf (5 + nc) thr netW netH i =
      if buf (i * (5 + nc) + 4) ≤ objectnessGate then []
      else (List.range nc).flatMap (fun c =>
        if buf (i * (5 + nc) + 5 + c) * buf (i * (5 + nc) + 4) ≤ thr then []
        else addBBoxProposal (buf (i * (5 + nc))) (buf (i * (5 + nc) + 1))
          (buf (i * (5 + nc) + 2)) (buf (i * (5 + nc) + 3)) netW netH c
          (buf (i * (5 + nc) + 5 + c) * buf (i * (5 + nc) + 4)) []) := by
  unfold cellCandidates cellBody confidenceIndex
  by_cases hg : buf (i * (5 + nc) + 4) ≤ objectnessGate
  · simp [hg]
  · simp only [hg, if_false]
    rw [classLoop_eq, List.nil_append]
    apply List.flatMap_congr
    intro c hc
    have hc2 : c < nc := List.mem_range.1 hc
    have e0 : scaleLoop buf (i * (5 + nc)) (5 + nc) (i * (5 + nc)) = buf (i * (5 + nc)) := by
      rw [scaleLoop_apply, if_neg (by omega)]
    have e1 : scaleLoop buf (i * (5 + nc)) (5 + nc) (i * (5 + nc) + 1)
        = buf (i * (5 + nc) + 1) := by
      rw [scaleLoop_apply, if_neg (by omega)]
    have e2 : scaleLoop buf (i * (5 + nc)) (5 + nc) (i * (5 + nc) + 2)
        = buf (i * (5 + nc) + 2) := by
      rw [scaleLoop_apply, if_neg (by omega)]
    have e3 : scaleLoop buf (i * (5 + nc)) (5 + nc) (i * (5 + nc) + 3)
        = buf (i * (5 + nc) + 3) := by
      rw [scaleLoop_apply, if_neg (by omega)]
    have e5 : scaleLoop buf (i * (5 + nc)) (5 + nc) (i * (5 + nc) + 5 + c)
        = buf (i * (5 + nc) + 5 + c) * buf (i * (5 + nc) + 4) := by
      rw [scaleLoop_apply, if_pos (by omega)]
    rw [e0, e1, e2, e3, e5]

/-- The loop body appends the cell's candidates and, above the gate, scales the cell. -/
theorem cellBody_eq (buf : Buffer) (binfo : List NvDsInferParseObjectInfo) (nc : Nat) (thr : ℚ)
    (netW netH i : Nat) :
    cellBody (5 + nc) thr netW netH (buf, binfo) i =
      (if buf (i * (5 + nc) + 4) ≤ objectnessGate then buf
        else scaleLoop buf (i * (5 + nc)) (5 + nc),
        binfo ++ cellCandidates buf (5 + nc) thr netW netH i) := by
  unfold cellCandidates cellBody confidenceIndex
  by_cases hg : buf (i * (5 + nc) + 4) ≤ objectnessGate
  · simp [hg]
  · simp only [hg, if_false]
    rw [classLoop_eq, classLoop_eq, List.nil_append]

/-- The candidates of a cell only depend on the buffer values of that cell. -/
theorem cellCandidates_congr (buf1 buf2 : Buffer) (nc : Nat) (thr : ℚ) (netW netH i : Nat)
    (h : ∀ k, k < 5 + nc → buf1 (i * (5 + nc) + k) = buf2 (i * (5 + nc) + k)) :
    cellCandidates buf1 (5 + nc) thr netW netH i = cellCandidates buf2 (5 + nc) thr netW netH i := by
  rw [cellCandidates_eq, cellCandidates_eq]
  have h0 := h 0 (by omega)
  rw [Nat.add_zero] at h0
  rw [h 4 (by omega), h0, h 1 (by omega), h 2 (by omega), h 3 (by omega)]
  split
  · rfl
  · apply List.flatMap_congr
    intro c hc
    have hc2 : c < nc := List.mem_range.1 hc
    have := h (5 + c) (by omega)
    rw [← Nat.add_assoc] at this
    rw [this]

theorem cell_index_div (dim q r : Nat) (hr : r < dim) : (q * dim + r) / dim = q := by
  have hd : 0 < dim := by omega
  rw [Nat.mul_comm, Nat.mul_add_div hd, Nat.div_eq_of_lt hr, Nat.add_zero]

/-- Inside the cells not yet visited the scaled buffer still holds the original values. -/
theorem scaledBuffer_unvisited (buf : Buffer) (dim n k : Nat) (hk : k < dim) :
    scaledBuffer buf dim n (n * dim + k) = buf (n * dim + k) := by
  unfold scaledBuffer
  rw [cell_index_div dim n k hk, if_neg (by omega)]

/-- The state after the first `n` cells: the scaled buffer and the candidates of the cells
`0 .. n-1`, each computed from the original buffer. -/
theorem decodeCells_eq (n nc : Nat) (thr : ℚ) (netW netH : Nat) (buf : Buffer) :
    decodeCells n (5 + nc) thr netW netH buf =
      (scaledBuffer buf (5 + nc) n,
        (List.range n).flatMap (cellCandidates buf (5 + nc) thr netW netH)) := by
  induction n with
  | zero =>
    unfold decodeCells scaledBuffer
    simp
  | succ n ih =>
    unfold decodeCells at ih ⊢
    rw [List.range_succ, List.foldl_append, ih, List.foldl_cons, List.foldl_nil, cellBody_eq,
      cellCandidates_congr _ buf nc thr netW netH n
        (fun k hk => scaledBuffer_unvisited buf (5 + nc) n k hk),
      List.flatMap_append, List.flatMap_singleton,
      scaledBuffer_unvisited buf (5 + nc) n 4 (by omega)]
    congr 1
    funext idx
    have hdm : (5 + nc) * (idx / (5 + nc)) + idx % (5 + nc) = idx := Nat.div_add_mod idx (5 + nc)
    have hml : idx % (5 + nc) < 5 + nc := Nat.mod_lt idx (by omega)
    have hcomm : (5 + nc) * (idx / (5 + nc)) = idx / (5 + nc) * (5 + nc) := Nat.mul_comm _ _
    rcases Nat.lt_trichotomy (idx / (5 + nc)) n with hq | hq | hq
    · have hmul : (idx / (5 + nc) + 1) * (5 + nc) ≤ n * (5 + nc) :=
        Nat.mul_le_mul_right _ hq
      rw [Nat.add_mul, Nat.one_mul] at hmul
      have hlt : idx < n * (5 + nc) := by omega
      have hsame : scaledBuffer buf (5 + nc) (n + 1) idx = scaledBuffer buf (5 + nc) n idx := by
        unfold scaledBuffer
        have a1 : idx / (5 + nc) < n + 1 := by omega
        simp only [hq, a1, true_and]
      rw [hsame]
      split
      · rfl
      · rw [scaleLoop_apply, if_neg (by omega)]
    · have hidx : idx = n * (5 + nc) + idx % (5 + nc) := by rw [← hq]; omega
      have hn1 : scaledBuffer buf (5 + nc) (n + 1) idx
          = if 5 ≤ idx % (5 + nc) ∧ objectnessGate < buf (n * (5 + nc) + 4) then
              buf idx * buf (n * (5 + nc) + 4) else buf idx := by
        unfold scaledBuffer
        rw [hq]
        simp
      have hn0 : scaledBuffer buf (5 + nc) n idx = buf idx := by
        rw [hidx]
        exact scaledBuffer_unvisited buf (5 + nc) n _ hml
      rw [hn1]
      by_cases hg : buf (n * (5 + nc) + 4) ≤ objectnessGate
      · rw [if_pos hg, hn0, if_neg (fun h => absurd hg (not_le.2 h.2))]
      · rw [if_neg hg, scaleLoop_apply, hn0,
          scaledBuffer_unvisited buf (5 + nc) n 4 (by omega)]
        by_cases h5 : 5 ≤ idx % (5 + nc)
        · rw [if_pos (by omega), if_pos ⟨h5, not_le.1 hg⟩]
        · rw [if_neg (by omega), if_neg (fun h => h5 h.1)]
    · have hmul : (n + 1) * (5 + nc) ≤ idx / (5 + nc) * (5 + nc) :=
        Nat.mul_le_mul_right _ hq
      rw [Nat.add_mul, Nat.one_mul] at hmul
      have hge : n * (5 + nc) + (5 + nc) ≤ idx := by omega
      have hn1 : scaledBuffer buf (5 + nc) (n + 1) idx = buf idx := by
        unfold scaledBuffer
        rw [if_neg (by omega)]
      have hn0 : scaledBuffer buf (5 + nc) n idx = buf idx := by
        unfold scaledBuffer
        rw [if_neg (by omega)]
      rw [hn1]
      split
      · exact hn0
      · rw [scaleLoop_apply, if_neg (by omega), hn0]

theorem decodeStage_eq (n : Nat) (layer : NvDsInferLayerInfo)
    (networkInfo : NvDsInferNetworkInfo) (detectionParams : NvDsInferParseDetectionParams) :
    decodeStage n layer networkInfo detectionParams =
      (scaledBuffer layer.buffer (5 + detectionParams.numClassesConfigured) n,
        (List.range n).flatMap
          (cellCandidates layer.buffer (5 + detectionParams.numClassesConfigured)
            (detectionParams.perClassThreshold.getD 0 0) networkInfo.width networkInfo.height)) := by
  unfold decodeStage
  exact decodeCells_eq n _ _ _ _ _

theorem addBBoxProposal_nil (bx by_ bw bh : ℚ) (netW netH maxIndex : Nat) (maxProb : ℚ) :
    addBBoxProposal bx by_ bw bh netW netH maxIndex maxProb [] =
      if (convertBBox bx by_ bw bh netW netH).width < 1 ∨
          (convertBBox bx by_ bw bh netW netH).height < 1 then []
      else [{ convertBBox bx by_ bw bh netW netH with
              detectionConfidence := maxProb, classId := maxIndex }] := by
  simp only [addBBoxProposal, List.nil_append]

/-- What membership in a cell's candidates means, in terms of the buffer the cell is decoded
from: the cell passed the gate, and the candidate is the cell's box, of width and height at
least 1, labelled with a class whose score times objectness is above the threshold and
carrying that product as confidence. -/
theorem of_mem_cellCandidates {buf : Buffer} {nc : Nat} {thr : ℚ} {netW netH i : Nat}
    {b : NvDsInferParseObjectInfo} (h : b ∈ cellCandidates buf (5 + nc) thr netW netH i) :
    objectnessGate < buf (i * (5 + nc) + 4) ∧ b.classId < nc ∧
    thr < buf (i * (5 + nc) + 5 + b.classId) * buf (i * (5 + nc) + 4) ∧
    b.detectionConfidence = buf (i * (5 + nc) + 5 + b.classId) * buf (i * (5 + nc) + 4) ∧
    1 ≤ b.width ∧ 1 ≤ b.height ∧
    b.left = (cellBox buf (5 + nc) netW netH i).left ∧
    b.top = (cellBox buf (5 + nc) netW netH i).top ∧
    b.width = (cellBox buf (5 + nc) netW netH i).width ∧
    b.height = (cellBox buf (5 + nc) netW netH i).height := by
  rw [cellCandidates_eq] at h
  by_cases hg : buf (i * (5 + nc) + 4) ≤ objectnessGate
  · rw [if_pos hg] at h
    simp at h
  · rw [if_neg hg] at h
    obtain ⟨c, hc, hb⟩ := List.mem_flatMap.1 h
    have hc2 : c < nc := List.mem_range.1 hc
    by_cases ht : buf (i * (5 + nc) + 5 + c) * buf (i * (5 + nc) + 4) ≤ thr
    · rw [if_pos ht] at hb
      simp at hb
    · rw [if_neg ht, addBBoxProposal_nil] at hb
      by_cases hd : (convertBBox (buf (i * (5 + nc))) (buf (i * (5 + nc) + 1))
          (buf (i * (5 + nc) + 2)) (buf (i * (5 + nc) + 3)) netW netH).width < 1 ∨
          (convertBBox (buf (i * (5 + nc))) (buf (i * (5 + nc) + 1))
          (buf (i * (5 + nc) + 2)) (buf (i * (5 + nc) + 3)) netW netH).height < 1
      · rw [if_pos hd] at hb
        simp at hb
      · rw [if_neg hd, List.mem_singleton] at hb
        rw [not_or, not_lt, not_lt] at hd
        subst hb
        exact ⟨not_le.1 hg, hc2, not_le.1 ht, rfl, hd.1, hd.2, rfl, rfl, rfl, rfl⟩

/-- Every candidate the decode stage hands to `nmsAllClasses` comes from one of the cells
below the loop bound, decoded from the caller's original buffer values. -/
theorem of_mem_decodeStage {n : Nat} {layer : NvDsInferLayerInfo}
    {networkInfo : NvDsInferNetworkInfo} {detectionParams : NvDsInferParseDetectionParams}
    {b : NvDsInferParseObjectInfo}
    (h : b ∈ (decodeStage n layer networkInfo detectionParams).2) :
    ∃ i, i < n ∧
      b ∈ cellCandidates layer.buffer (5 + detectionParams.numClassesConfigured)
        (detectionParams.perClassThreshold.getD 0 0) networkInfo.width networkInfo.height i := by
  rw [decodeStage_eq] at h
  obtain ⟨i, hi, hb⟩ := List.mem_flatMap.1 h
  exact ⟨i, List.mem_range.1 hi, hb⟩

theorem decodeStage_nil_of {n : Nat} {layer : NvDsInferLayerInfo}
    {networkInfo : NvDsInferNetworkInfo} {detectionParams : NvDsInferParseDetectionParams}
    (h : ∀ i, i < n →
      cellCandidates layer.buffer (5 + detectionParams.numClassesConfigured)
        (detectionParams.perClassThreshold.getD 0 0) networkInfo.width networkInfo.height i
        = []) :
    (decodeStage n layer networkInfo detectionParams).2 = [] := by
  rw [decodeStage_eq]
  exact List.flatMap_eq_nil_iff.2 (fun i hi => h i (List.mem_range.1 hi))

theorem decodeStage_single {n : Nat} {layer : NvDsInferLayerInfo}
    {networkInfo : NvDsInferNetworkInfo} {detectionParams : NvDsInferParseDetectionParams}
    (hn : 0 < n)
    (h : ∀ i, i < n → i ≠ 0 →
      cellCandidates layer.buffer (5 + detectionParams.numClassesConfigured)
        (detectionParams.perClassThreshold.getD 0 0) networkInfo.width networkInfo.height i
        = []) :
    (decodeStage n layer networkInfo detectionParams).2 =
      cellCandidates layer.buffer (5 + detectionParams.numClassesConfigured)
        (detectionParams.perClassThreshold.getD 0 0) networkInfo.width networkInfo.height 0 := by
  rw [decodeStage_eq]
  obtain ⟨m, rfl⟩ : ∃ m, n = m + 1 := ⟨n - 1, by omega⟩
  simp only []
  rw [List.range_succ_eq_map, List.flatMap_cons, List.flatMap_map]
  have : ((List.range m).flatMap fun a =>
      cellCandidates layer.buffer (5 + detectionParams.numClassesConfigured)
        (detectionParams.perClassThreshold.getD 0 0) networkInfo.width networkInfo.height
        a.succ) = [] :=
    List.flatMap_eq_nil_iff.2 (fun i hi =>
      h (i + 1) (by have := List.mem_range.1 hi; omega) (by omega))
  rw [this, List.append_nil]

theorem classId_lt_of_mem_decodeStage {n : Nat} {layer : NvDsInferLayerInfo}
    {networkInfo : NvDsInferNetworkInfo} {detectionParams : NvDsInferParseDetectionParams} :
    ∀ b ∈ (decodeStage n layer networkInfo detectionParams).2,
      b.classId < detectionParams.numClassesConfigured := by
  intro b hb
  obtain ⟨i, _, hi⟩ := of_mem_decodeStage hb
  exact (of_mem_cellCandidates hi).2.1

/-- The call returns: its outcome is the scaled buffer, the class-wise suppressed candidates
and the flag `true`. -/
theorem parseCells_eq (n : Nat) (layer : NvDsInferLayerInfo)
    (networkInfo : NvDsInferNetworkInfo) (detectionParams : NvDsInferParseDetectionParams)
    (objectList : List NvDsInferParseObjectInfo) :
    parseCells n layer networkInfo detectionParams objectList =
      some { buffer := scaledBuffer layer.buffer (5 + detectionParams.numClassesConfigured) n
             objectList := (List.range detectionParams.numClassesConfigured).flatMap
               (fun c => nonMaximumSuppression beta_nms
                 (ofClass c (decodeStage n layer networkInfo detectionParams).2))
             ret := true } := by
  unfold parseCells
  simp only [nmsAllClasses_eq beta_nms _ _ classId_lt_of_mem_decodeStage]
  rw [decodeStage_eq]

theorem mem_decodeStage_of_mem_objectList {n : Nat} {layer : NvDsInferLayerInfo}
    {networkInfo : NvDsInferNetworkInfo} {detectionParams : NvDsInferParseDetectionParams}
    {b : NvDsInferParseObjectInfo}
    (h : b ∈ (List.range detectionParams.numClassesConfigured).flatMap
      (fun c => nonMaximumSuppression beta_nms
        (ofClass c (decodeStage n layer networkInfo detectionParams).2))) :
    b ∈ (decodeStage n layer networkInfo detectionParams).2 := by
  obtain ⟨c, _, hc⟩ := List.mem_flatMap.1 h
  exact (classId_of_mem_nms_ofClass hc).1

/-- Degenerate rejection for an arbitrary loop bound `n`. -/
theorem degenerate_cells (n : Nat) (layer : NvDsInferLayerInfo)
    (networkInfo : NvDsInferNetworkInfo) (detectionParams : NvDsInferParseDetectionParams)
    (objectList : List NvDsInferParseObjectInfo) :
    (∀ b ∈ (decodeStage n layer networkInfo detectionParams).2, 1 ≤ b.width ∧ 1 ≤ b.height) ∧
    (∃ out, parseCells n layer networkInfo detectionParams objectList = some out ∧
      ∀ b ∈ out.objectList, 1 ≤ b.width ∧ 1 ≤ b.height) ∧
    (∀ (bx by_ bw bh : ℚ) (netW netH maxIndex : Nat) (maxProb : ℚ)
      (binfo : List NvDsInferParseObjectInfo),
      (convertBBox bx by_ bw bh netW netH).width < 1 ∨
        (convertBBox bx by_ bw bh netW netH).height < 1 →
      addBBoxProposal bx by_ bw bh netW netH maxIndex maxProb binfo = binfo) := by
  have pre : ∀ b ∈ (decodeStage n layer networkInfo detectionParams).2,
      1 ≤ b.width ∧ 1 ≤ b.height := by
    intro b hb
    obtain ⟨i, _, hi⟩ := of_mem_decodeStage hb
    have h := of_mem_cellCandidates hi
    exact ⟨h.2.2.2.2.1, h.2.2.2.2.2.1⟩
  refine ⟨pre, ⟨_, parseCells_eq n layer networkInfo detectionParams objectList,
    fun b hb => pre b (mem_decodeStage_of_mem_objectList hb)⟩, ?_⟩
  intro bx by_ bw bh netW netH maxIndex maxProb binfo hd
  simp only [addBBoxProposal, if_pos hd]

/-! ## The sample layer -/

theorem sampleLayer_far (i k : Nat) (h : i ≠ 0) : sampleLayer.buffer (i * (5 + 2) + k) = 0 := by
  unfold sampleLayer
  exact List.getD_eq_default _ _ (by simp only [sampleCell, List.length_cons, List.length_nil]; omega)

theorem sampleLayer_cellCandidates_far (thr : ℚ) (netW netH i : Nat) (h : i ≠ 0) :
    cellCandidates sampleLayer.buffer (5 + 2) thr netW netH i = [] := by
  rw [cellCandidates_eq, sampleLayer_far i 4 h, if_pos (by norm_num [objectnessGate])]

theorem sampleLayer_cellCandidates_low :
    cellCandidates sampleLayer.buffer (5 + 2) (1 / 5) 10 10 0 =
      [⟨0, 3, 3, 4, 4, 1 / 4⟩, ⟨1, 3, 3, 4, 4, 1 / 4⟩] := by
  rw [cellCandidates_eq]
  norm_num [objectnessGate, sampleLayer, sampleCell, List.range_succ, addBBoxProposal,
    convertBBox, clamp]

/-! ## The decoder: the claims -/

/-- Claim C9: every candidate that `NvDsInferParseYolo` hands to `nmsAllClasses` has width and
height at least 1; the call returns, and every candidate of the returned list has width and
height at least 1; and `addBBoxProposal` leaves `binfo` unchanged whenever the clamped width
or the clamped height is below 1. -/
theorem degenerate_rejection (layer : NvDsInferLayerInfo)
    (networkInfo : NvDsInferNetworkInfo) (detectionParams : NvDsInferParseDetectionParams)
    (objectList : List NvDsInferParseObjectInfo) :
    (∀ b ∈ (decodeStage 25200 layer networkInfo detectionParams).2,
      1 ≤ b.width ∧ 1 ≤ b.height) ∧
    (∃ out, NvDsInferParseYolo layer networkInfo detectionParams objectList = some out ∧
      ∀ b ∈ out.objectList, 1 ≤ b.width ∧ 1 ≤ b.height) ∧
    (∀ (bx by_ bw bh : ℚ) (netW netH maxIndex : Nat) (maxProb : ℚ)
      (binfo : List NvDsInferParseObjectInfo),
      (convertBBox bx by_ bw bh netW netH).width < 1 ∨
        (convertBBox bx by_ bw bh netW netH).height < 1 →
      addBBoxProposal bx by_ bw bh netW netH maxIndex maxProb binfo = binfo) :=
  degenerate_cells 25200 layer networkInfo detectionParams objectList

/-- Witness for C9: a proposal of size `0.5 x 3` centred at `(5, 5)` in a `10 x 10` frame has
clamped width `0.5 < 1`, and `addBBoxProposal` leaves the list `[sampleA]` as it is. -/
theorem degenerate_rejection_witness :
    (convertBBox 5 5 (1 / 2) 3 10 10).width < 1 ∧
    addBBoxProposal 5 5 (1 / 2) 3 10 10 0 (9 / 10) [sampleA] = [sampleA] :=
  ⟨by norm_num [convertBBox, clamp],
    (degenerate_rejection sampleLayer sampleNet sampleParams []).2.2 5 5 (1 / 2) 3 10 10 0
      (9 / 10) [sampleA] (Or.inl (by norm_num [convertBBox, clamp]))⟩

/-! ## Suppression: further auxiliary facts -/

theorem subperm_append {α : Type} {l1 l2 r1 r2 : List α} (h1 : l1.Subperm l2)
    (h2 : r1.Subperm r2) : (l1 ++ r1).Subperm (l2 ++ r2) := by
  obtain ⟨l, hl, hs⟩ := h1
  obtain ⟨r, hr, hs2⟩ := h2
  exact ⟨l ++ r, hl.append hr, hs.append hs2⟩

theorem subperm_flatMap {α β : Type} (f g : α → List β) (l : List α)
    (h : ∀ a ∈ l, (f a).Subperm (g a)) : (l.flatMap f).Subperm (l.flatMap g) := by
  induction l with
  | nil => exact List.Subperm.refl _
  | cons a l ih =>
    rw [List.flatMap_cons, List.flatMap_cons]
    exact subperm_append (h a (List.mem_cons_self _ _))
      (ih (fun x hx => h x (List.mem_cons_of_mem _ hx)))

/-- The class buckets below `n`, concatenated, are a rearrangement of the candidates whose
class label is below `n`. -/
theorem flatMap_ofClass_perm (binfo : List NvDsInferParseObjectInfo) (n : Nat) :
    ((List.range n).flatMap (fun c => ofClass c binfo)).Perm
      (binfo.filter (fun b => b.classId < n)) := by
  induction n with
  | zero => simp
  | succ n ih =>
    rw [List.range_succ, List.flatMap_append, List.flatMap_singleton]
    have hsplit := List.filter_append_perm (fun b : NvDsInferParseObjectInfo => b.classId < n)
      (binfo.filter (fun b => b.classId < n + 1))
    rw [List.filter_filter, List.filter_filter] at hsplit
    have e1 : (binfo.filter fun a => decide (a.classId < n) && decide (a.classId < n + 1))
        = binfo.filter (fun b => b.classId < n) := by
      apply List.filter_congr
      intro b _
      by_cases h : b.classId < n
      · have : b.classId < n + 1 := by omega
        simp [h, this]
      · simp [h]
    have e2 : (binfo.filter fun a => (!decide (a.classId < n)) && decide (a.classId < n + 1))
        = ofClass n binfo := by
      unfold ofClass
      apply List.filter_congr
      intro b _
      by_cases h : b.classId = n
      · simp [h]
      · by_cases h2 : b.classId < n
        · simp [h, h2]
        · have : ¬ b.classId < n + 1 := by omega
          simp [h, h2, this]
    rw [e1, e2] at hsplit
    exact (ih.append (List.Perm.refl _)).trans hsplit

theorem nonMaximumSuppression_subperm (t : ℚ) (binfo : List NvDsInferParseObjectInfo) :
    (nonMaximumSuppression t binfo).Subperm binfo :=
  (nonMaximumSuppression_sublist t binfo).subperm.trans
    (List.perm_insertionSort confGE binfo).subperm

/-- With every class label in range the output of `nmsAllClasses` is a sub-multiset of its
input. -/
theorem nmsAllClasses_subperm (t : ℚ) (binfo : List NvDsInferParseObjectInfo) (n : Nat)
    (h : ∀ b ∈ binfo, b.classId < n) :
    ((List.range n).flatMap (fun c => nonMaximumSuppression t (ofClass c binfo))).Subperm
      binfo := by
  have h1 := subperm_flatMap (fun c => nonMaximumSuppression t (ofClass c binfo))
    (fun c => ofClass c binfo) (List.range n)
    (fun c _ => nonMaximumSuppression_subperm t (ofClass c binfo))
  have h2 := flatMap_ofClass_perm binfo n
  have h3 : binfo.filter (fun b => b.classId < n) = binfo := by
    rw [List.filter_eq_self]
    intro b hb
    simpa using h b hb
  rw [h3] at h2
  exact h1.trans h2.subperm

/-! ## Suppression: claims C11, C19, C20 -/

/-- Claim C11: for every two boxes of non-negative width and height,
`computeIoU a b = computeIoU b a`, the cases of equal left or equal top coordinates (where
`overlap1D` does not swap) included. -/
theorem computeIoU_symmetric (a b : NvDsInferParseObjectInfo)
    (haw : 0 ≤ a.width) (hah : 0 ≤ a.height) (hbw : 0 ≤ b.width) (hbh : 0 ≤ b.height) :
    computeIoU a b = computeIoU b a :=
  computeIoU_comm haw hah hbw hbh

/-- Witness for C11: `sampleA` and `sampleD` share the top coordinate `0`, so `overlap1D` does
not swap on the vertical axis, and the IoU is the `float` nearest to `9/11` in both argument
orders. -/
theorem computeIoU_symmetric_witness :
    sampleA.top = sampleD.top ∧ computeIoU sampleA sampleD = 13726813 / 16777216 ∧
    computeIoU sampleA sampleD = computeIoU sampleD sampleA :=
  ⟨rfl, computeIoU_sampleAD,
    computeIoU_symmetric sampleA sampleD (by norm_num [sampleA]) (by norm_num [sampleA])
      (by norm_num [sampleD]) (by norm_num [sampleD])⟩

/-- Claim C19: `overlap1D aMin aMax bMin bMax = overlap1D bMin bMax aMin aMax` for every two
intervals `aMin ≤ aMax`, `bMin ≤ bMax`, and also for any four values with `aMin ≠ bMin`. -/
theorem overlap1D_symmetric (aMin aMax bMin bMax : ℚ) :
    (aMin ≤ aMax → bMin ≤ bMax →
      overlap1D aMin aMax bMin bMax = overlap1D bMin bMax aMin aMax) ∧
    (aMin ≠ bMin → overlap1D aMin aMax bMin bMax = overlap1D bMin bMax aMin aMax) := by
  refine ⟨fun ha hb => overlap1D_comm ha hb, fun hne => ?_⟩
  unfold overlap1D
  rcases lt_or_gt_of_ne hne with h | h
  · rw [if_neg (not_lt.2 h.le), if_pos h]
  · rw [if_pos h, if_neg (not_lt.2 h.le)]

/-- Witness for C19: two intervals with the same minimum, where `overlap1D` does not swap. -/
theorem overlap1D_symmetric_witness :
    overlap1D 2 5 2 3 = 1 ∧ overlap1D 2 5 2 3 = overlap1D 2 3 2 5 :=
  ⟨by norm_num [overlap1D, fsub, roundF32_one],
    (overlap1D_symmetric 2 5 2 3).1 (by norm_num) (by norm_num)⟩

/-- Claim C20: for every threshold, class count and candidate list whose class labels are all
below `numClasses`, `nmsAllClasses` returns a list that is a sub-multiset of its input: every
output candidate is an input candidate (same box, class and confidence) and occurs no more
often than in the input; the output is not longer than the input; and an empty input gives
an empty output. -/
theorem nmsAllClasses_only_removes (nmsThresh : ℚ) (numClasses : Nat) :
    (∀ binfo : List NvDsInferParseObjectInfo, (∀ b ∈ binfo, b.classId < numClasses) →
      ∃ out, nmsAllClasses nmsThresh binfo numClasses = some out ∧
        out.Subperm binfo ∧ (∀ b ∈ out, b ∈ binfo) ∧
        (∀ b, out.count b ≤ binfo.count b) ∧ out.length ≤ binfo.length) ∧
    nmsAllClasses nmsThresh [] numClasses = some [] := by
  have main : ∀ binfo : List NvDsInferParseObjectInfo, (∀ b ∈ binfo, b.classId < numClasses) →
      ∃ out, nmsAllClasses nmsThresh binfo numClasses = some out ∧
        out.Subperm binfo ∧ (∀ b ∈ out, b ∈ binfo) ∧
        (∀ b, out.count b ≤ binfo.count b) ∧ out.length ≤ binfo.length := by
    intro binfo h
    have hs := nmsAllClasses_subperm nmsThresh binfo numClasses h
    exact ⟨_, nmsAllClasses_eq nmsThresh binfo numClasses h, hs, fun b hb => hs.subset hb,
      fun b => hs.count_le b, hs.length_le⟩
  refine ⟨main, ?_⟩
  obtain ⟨out, hout, hs, _⟩ := main [] (fun b hb => by simp at hb)
  have : out = [] := List.eq_nil_of_length_eq_zero (Nat.le_zero.1 hs.length_le)
  rw [hout, this]

/-- Witness for C20: on `[sampleD, sampleA, sampleC, sampleB]` with two classes and threshold
`0.45` the output is a sub-multiset of the input. -/
theorem nmsAllClasses_only_removes_witness :
    ∃ out, nmsAllClasses beta_nms [sampleD, sampleA, sampleC, sampleB] 2 = some out ∧
      out.Subperm [sampleD, sampleA, sampleC, sampleB] ∧
      (∀ b ∈ out, b ∈ [sampleD, sampleA, sampleC, sampleB]) ∧
      (∀ b, out.count b ≤ [sampleD, sampleA, sampleC, sampleB].count b) ∧
      out.length ≤ [sampleD, sampleA, sampleC, sampleB].length :=
  (nmsAllClasses_only_removes beta_nms 2).1 [sampleD, sampleA, sampleC, sampleB] (by decide)

/-! ## Suppression: order and maximality, auxiliary facts -/

theorem nmsLoop_append (t : ℚ) (l1 l2 out : List NvDsInferParseObjectInfo) :
    nmsLoop t (l1 ++ l2) out = nmsLoop t l2 (nmsLoop t l1 out) := by
  induction l1 generalizing out with
  | nil => rfl
  | cons i l1 ih =>
    rw [List.cons_append, nmsLoop, nmsLoop]
    exact ih _

theorem mem_of_mem_nmsLoop_nil {t : ℚ} {pre : List NvDsInferParseObjectInfo}
    {y : NvDsInferParseObjectInfo} (h : y ∈ nmsLoop t pre []) : y ∈ pre := by
  obtain ⟨kept, hs, he⟩ := nmsLoop_sublist t pre []
  rw [he, List.nil_append] at h
  exact hs.subset h

/-- Each position of the sorted list is either accepted there or rejected by an already
accepted candidate that precedes it. -/
theorem nms_position (t : ℚ) (binfo pre post : List NvDsInferParseObjectInfo)
    (x : NvDsInferParseObjectInfo) (h : stableSortDesc binfo = pre ++ x :: post) :
    (∃ rest, nonMaximumSuppression t binfo = nmsLoop t pre [] ++ x :: rest) ∨
    (∃ y, y ∈ pre ∧ y ∈ nonMaximumSuppression t binfo ∧
      x.detectionConfidence ≤ y.detectionConfidence ∧ t < computeIoU x y) := by
  have hN : nonMaximumSuppression t binfo
      = nmsLoop t post (if keepLoop t x true (nmsLoop t pre []) then nmsLoop t pre [] ++ [x]
          else nmsLoop t pre []) := by
    unfold nonMaximumSuppression
    rw [h, nmsLoop_append, nmsLoop]
  by_cases hk : keepLoop t x true (nmsLoop t pre []) = true
  · left
    rw [if_pos hk] at hN
    obtain ⟨kept, _, he⟩ := nmsLoop_sublist t post (nmsLoop t pre [] ++ [x])
    exact ⟨kept, by rw [hN, he]; simp⟩
  · right
    rw [if_neg hk] at hN
    rw [keepLoop_true_iff] at hk
    push_neg at hk
    obtain ⟨y, hy, hlt⟩ := hk
    obtain ⟨kept, _, he⟩ := nmsLoop_sublist t post (nmsLoop t pre [])
    have hypre : y ∈ pre := mem_of_mem_nmsLoop_nil hy
    have hsorted : (pre ++ x :: post).Sorted confGE := by
      rw [← h]
      exact List.sorted_insertionSort confGE binfo
    have hconf : confGE y x := by
      have := (List.pairwise_append.1 hsorted).2.2 y hypre x (List.mem_cons_self _ _)
      exact this
    exact ⟨y, hypre, by rw [hN, he]; exact List.mem_append_left _ hy, hconf, hlt⟩

/-- The head of the stably sorted list is the earliest input candidate of maximal
confidence. -/
theorem stableSortDesc_head (binfo : List NvDsInferParseObjectInfo) (hne : binfo ≠ []) :
    ∃ x rest pre post, stableSortDesc binfo = x :: rest ∧ binfo = pre ++ x :: post ∧
      (∀ y ∈ pre, y.detectionConfidence < x.detectionConfidence) ∧
      (∀ y ∈ binfo, y.detectionConfidence ≤ x.detectionConfidence) := by
  induction binfo with
  | nil => exact absurd rfl hne
  | cons a l ih =>
    by_cases hl : l = []
    · subst hl
      exact ⟨a, [], [], [], rfl, rfl, fun y hy => by simp at hy,
        fun y hy => by simp at hy; rw [hy]⟩
    · obtain ⟨b, rest, pre, post, hs, hd, hpre, hmax⟩ := ih hl
      have hsort : stableSortDesc (a :: l) = List.orderedInsert confGE a (b :: rest) := by
        unfold stableSortDesc at hs ⊢
        rw [List.insertionSort, hs]
      by_cases hab : confGE a b
      · refine ⟨a, b :: rest, [], l, ?_, rfl, fun y hy => by simp at hy, ?_⟩
        · rw [hsort, List.orderedInsert, if_pos hab]
        · intro y hy
          rcases List.mem_cons.1 hy with rfl | hy
          · exact le_rfl
          · exact le_trans (hmax y hy) hab
      · have hlt : a.detectionConfidence < b.detectionConfidence := not_le.1 hab
        refine ⟨b, List.orderedInsert confGE a rest, a :: pre, post, ?_, ?_, ?_, ?_⟩
        · rw [hsort, List.orderedInsert, if_neg hab]
        · rw [hd]
          rfl
        · intro y hy
          rcases List.mem_cons.1 hy with rfl | hy
          · exact hlt
          · exact hpre y hy
        · intro y hy
          rcases List.mem_cons.1 hy with rfl | hy
          · exact hlt.le
          · exact hmax y hy

/-- Stability: inserting into a sorted list does not move the new element past an element
of the same confidence. -/
theorem filter_conf_orderedInsert (v : ℚ) (a : NvDsInferParseObjectInfo)
    (s : List NvDsInferParseObjectInfo) :
    (List.orderedInsert confGE a s).filter (fun b => b.detectionConfidence = v)
      = (a :: s).filter (fun b => b.detectionConfidence = v) := by
  induction s with
  | nil => rfl
  | cons b s ih =>
    rw [List.orderedInsert]
    by_cases hab : confGE a b
    · rw [if_pos hab]
    · rw [if_neg hab]
      have hlt : a.detectionConfidence < b.detectionConfidence := not_le.1 hab
      rw [List.filter_cons, ih]
      by_cases ha : a.detectionConfidence = v
      · have hb : ¬ b.detectionConfidence = v := by
          intro hb
          rw [ha, hb] at hlt
          exact lt_irrefl _ hlt
        simp [List.filter_cons, ha, hb]
      · by_cases hb : b.detectionConfidence = v <;> simp [List.filter_cons, ha, hb]

/-- Stability of the sort: the candidates of any one confidence keep their input order. -/
theorem filter_conf_stableSortDesc (v : ℚ) (binfo : List NvDsInferParseObjectInfo) :
    (stableSortDesc binfo).filter (fun b => b.detectionConfidence = v)
      = binfo.filter (fun b => b.detectionConfidence = v) := by
  induction binfo with
  | nil => rfl
  | cons a l ih =>
    unfold stableSortDesc at ih ⊢
    rw [List.insertionSort, filter_conf_orderedInsert, List.filter_cons, List.filter_cons, ih]

theorem nonMaximumSuppression_sampleDA :
    nonMaximumSuppression beta_nms [sampleD, sampleA] = [sampleA] := by
  norm_num [nonMaximumSuppression, stableSortDesc, nmsLoop, keepLoop, confGE, computeIoU,
    overlap1D, fadd, fsub, fmul, fdiv, readF32, roundF32_ofNat, roundF32_zero, roundF32_one,
    roundF32_nine_elevenths, beta_nms, sampleA, sampleD, List.insertionSort, List.orderedInsert]

theorem nonMaximumSuppression_sampleAE :
    nonMaximumSuppression beta_nms [sampleA, sampleE] = [sampleA, sampleE] := by
  norm_num [nonMaximumSuppression, stableSortDesc, nmsLoop, keepLoop, confGE, computeIoU,
    overlap1D, fadd, fsub, fmul, fdiv, readF32, roundF32_ofNat, roundF32_zero, roundF32_one,
    roundF32_nine_elevenths, beta_nms, sampleA, sampleE, List.insertionSort, List.orderedInsert]

/-! ## Suppression: claims C16, C17 -/

/-- Claim C16: for every threshold and candidate list, at every position of the stably sorted
input the candidate `x` there is either accepted at that position or there is an accepted
candidate `y` before it in the sorted order (so `confidence y ≥ confidence x`) with
`computeIoU x y > nmsThresh`; hence every input candidate that is not in the output has such
a `y` in the output; and for a non-empty input the head of the sorted order, which is the
earliest input candidate of maximal confidence, is the head of the output. -/
theorem nms_maximality (nmsThresh : ℚ) (binfo : List NvDsInferParseObjectInfo) :
    (∀ (pre post : List NvDsInferParseObjectInfo) (x : NvDsInferParseObjectInfo),
      stableSortDesc binfo = pre ++ x :: post →
      (∃ rest, nonMaximumSuppression nmsThresh binfo = nmsLoop nmsThresh pre [] ++ x :: rest) ∨
      (∃ y, y ∈ pre ∧ y ∈ nonMaximumSuppression nmsThresh binfo ∧
        x.detectionConfidence ≤ y.detectionConfidence ∧ nmsThresh < computeIoU x y)) ∧
    (∀ x ∈ binfo, x ∉ nonMaximumSuppression nmsThresh binfo →
      ∃ y ∈ nonMaximumSuppression nmsThresh binfo,
        x.detectionConfidence ≤ y.detectionConfidence ∧ nmsThresh < computeIoU x y) ∧
    (binfo ≠ [] → ∃ x rest kept pre post,
      stableSortDesc binfo = x :: rest ∧ nonMaximumSuppression nmsThresh binfo = x :: kept ∧
      binfo = pre ++ x :: post ∧
      (∀ y ∈ pre, y.detectionConfidence < x.detectionConfidence) ∧
      (∀ y ∈ binfo, y.detectionConfidence ≤ x.detectionConfidence)) := by
  refine ⟨fun pre post x h => nms_position nmsThresh binfo pre post x h, ?_, ?_⟩
  · intro x hx hnot
    have hxs : x ∈ stableSortDesc binfo := (List.mem_insertionSort confGE).2 hx
    obtain ⟨pre, post, hsplit⟩ := List.append_of_mem hxs
    rcases nms_position nmsThresh binfo pre post x hsplit with ⟨rest, hr⟩ | ⟨y, _, hy, hc, hi⟩
    · exact absurd (by rw [hr]; simp) hnot
    · exact ⟨y, hy, hc, hi⟩
  · intro hne
    obtain ⟨x, rest, pre, post, hs, hd, hpre, hmax⟩ := stableSortDesc_head binfo hne
    rcases nms_position nmsThresh binfo [] rest x (by rw [hs]; rfl) with ⟨kept, hk⟩ | ⟨y, hy, _⟩
    · exact ⟨x, rest, kept, pre, post, hs, by simpa [nmsLoop] using hk, hd, hpre, hmax⟩
    · simp at hy

/-- Witness for C16: from `[sampleD, sampleA]` with threshold `0.45` only `sampleA` is kept;
`sampleD` is not in the output, and the output holds a candidate of no smaller confidence
whose IoU with `sampleD` is above `0.45`. -/
theorem nms_maximality_witness :
    sampleD ∉ nonMaximumSuppression beta_nms [sampleD, sampleA] ∧
    ∃ y ∈ nonMaximumSuppression beta_nms [sampleD, sampleA],
      sampleD.detectionConfidence ≤ y.detectionConfidence ∧ beta_nms < computeIoU sampleD y :=
  ⟨by rw [nonMaximumSuppression_sampleDA]; norm_num [sampleA, sampleD],
    (nms_maximality beta_nms [sampleD, sampleA]).2.1 sampleD (List.mem_cons_self _ _)
      (by rw [nonMaximumSuppression_sampleDA]; norm_num [sampleA, sampleD])⟩

/-- Claim C17: the output of `nonMaximumSuppression` is a subsequence of the input stably
sorted by descending confidence, where the stably sorted input is a rearrangement of the
input, has non-increasing confidences and keeps the candidates of any one confidence in
their input order; so the confidences of the output are non-increasing, and two kept
candidates of equal confidence appear in the output in the order they have in the input. -/
theorem nms_output_order (nmsThresh : ℚ) (binfo : List NvDsInferParseObjectInfo) :
    (nonMaximumSuppression nmsThresh binfo).Sublist (stableSortDesc binfo) ∧
    (stableSortDesc binfo).Perm binfo ∧
    (stableSortDesc binfo).Pairwise
      (fun a b => b.detectionConfidence ≤ a.detectionConfidence) ∧
    (∀ v : ℚ, (stableSortDesc binfo).filter (fun b => b.detectionConfidence = v)
      = binfo.filter (fun b => b.detectionConfidence = v)) ∧
    (nonMaximumSuppression nmsThresh binfo).Pairwise
      (fun a b => b.detectionConfidence ≤ a.detectionConfidence) ∧
    (∀ a b : NvDsInferParseObjectInfo, a.detectionConfidence = b.detectionConfidence →
      [a, b].Sublist (nonMaximumSuppression nmsThresh binfo) → [a, b].Sublist binfo) := by
  refine ⟨nonMaximumSuppression_sublist nmsThresh binfo, List.perm_insertionSort confGE binfo,
    List.sorted_insertionSort confGE binfo, fun v => filter_conf_stableSortDesc v binfo,
    nonMaximumSuppression_sorted nmsThresh binfo, ?_⟩
  intro a b hab hsub
  have h1 : [a, b].Sublist (stableSortDesc binfo) :=
    hsub.trans (nonMaximumSuppression_sublist nmsThresh binfo)
  have h2 := List.Sublist.filter (fun x => x.detectionConfidence = a.detectionConfidence) h1
  rw [filter_conf_stableSortDesc] at h2
  have h3 : [a, b].filter (fun x => x.detectionConfidence = a.detectionConfidence) = [a, b] := by
    simp [List.filter_cons, hab]
  rw [h3] at h2
  exact h2.trans (List.filter_sublist _)

/-- Witness for C17: `sampleA` and `sampleE` have the same confidence `0.9` and are both kept
from `[sampleA, sampleE]`, in the order of the input. -/
theorem nms_output_order_witness :
    sampleA.detectionConfidence = sampleE.detectionConfidence ∧
    [sampleA, sampleE].Sublist (nonMaximumSuppression beta_nms [sampleA, sampleE]) ∧
    [sampleA, sampleE].Sublist [sampleA, sampleE] :=
  ⟨rfl, by rw [nonMaximumSuppression_sampleAE],
    (nms_output_order beta_nms [sampleA, sampleE]).2.2.2.2.2 sampleA sampleE rfl
      (by rw [nonMaximumSuppression_sampleAE])⟩

/-! ## The decoder: further auxiliary facts -/

theorem cellCandidates_of_gate (buf : Buffer) (nc : Nat) (thr : ℚ) (netW netH i : Nat)
    (h : buf (i * (5 + nc) + 4) ≤ objectnessGate) :
    cellCandidates buf (5 + nc) thr netW netH i = [] := by
  rw [cellCandidates_eq, if_pos h]

theorem flatMap_nms_nil (t : ℚ) (nc : Nat) :
    (List.range nc).flatMap (fun c => nonMaximumSuppression t (ofClass c [])) = [] := by
  rw [List.flatMap_eq_nil_iff]
  intro c _
  exact nonMaximumSuppression_nil t

/-- When no cell emits a candidate the call returns the empty list. -/
theorem parseCells_of_nil (n : Nat) (layer : NvDsInferLayerInfo)
    (networkInfo : NvDsInferNetworkInfo) (detectionParams : NvDsInferParseDetectionParams)
    (objectList : List NvDsInferParseObjectInfo)
    (h : ∀ i, i < n →
      cellCandidates layer.buffer (5 + detectionParams.numClassesConfigured)
        (detectionParams.perClassThreshold.getD 0 0) networkInfo.width networkInfo.height i
        = []) :
    parseCells n layer networkInfo detectionParams objectList =
      some { buffer := scaledBuffer layer.buffer (5 + detectionParams.numClassesConfigured) n
             objectList := []
             ret := true } := by
  rw [parseCells_eq, decodeStage_nil_of h, flatMap_nms_nil]

/-- When only cell 0 emits candidates the call returns their class-wise suppression. -/
theorem parseCells_of_single (n : Nat) (layer : NvDsInferLayerInfo)
    (networkInfo : NvDsInferNetworkInfo) (detectionParams : NvDsInferParseDetectionParams)
    (objectList : List NvDsInferParseObjectInfo) (hn : 0 < n)
    (h : ∀ i, i < n → i ≠ 0 →
      cellCandidates layer.buffer (5 + detectionParams.numClassesConfigured)
        (detectionParams.perClassThreshold.getD 0 0) networkInfo.width networkInfo.height i
        = []) :
    parseCells n layer networkInfo detectionParams objectList =
      some { buffer := scaledBuffer layer.buffer (5 + detectionParams.numClassesConfigured) n
             objectList := (List.range detectionParams.numClassesConfigured).flatMap
               (fun c => nonMaximumSuppression beta_nms
                 (ofClass c (cellCandidates layer.buffer
                   (5 + detectionParams.numClassesConfigured)
                   (detectionParams.perClassThreshold.getD 0 0)
                   networkInfo.width networkInfo.height 0)))
             ret := true } := by
  rw [parseCells_eq, decodeStage_single hn h]

/-- The empty result below the gate, for an arbitrary loop bound `n`. -/
theorem gate_cells (n : Nat) (layer : NvDsInferLayerInfo)
    (networkInfo : NvDsInferNetworkInfo) (detectionParams : NvDsInferParseDetectionParams)
    (objectList : List NvDsInferParseObjectInfo)
    (h : ∀ i, i < n →
      layer.buffer (i * (5 + detectionParams.numClassesConfigured) + 4) ≤ objectnessGate) :
    ∃ out, parseCells n layer networkInfo detectionParams objectList = some out ∧
      out.ret = true ∧ out.objectList = [] :=
  ⟨_, parseCells_of_nil n layer networkInfo detectionParams objectList
    (fun i hi => cellCandidates_of_gate _ _ _ _ _ i (h i hi)), rfl, rfl⟩

/-- The confidence bounds for an arbitrary loop bound `n`. -/
theorem confidence_cells (n : Nat) (layer : NvDsInferLayerInfo)
    (networkInfo : NvDsInferNetworkInfo) (detectionParams : NvDsInferParseDetectionParams)
    (objectList : List NvDsInferParseObjectInfo) :
    ∃ out, parseCells n layer networkInfo detectionParams objectList = some out ∧
      (∀ b ∈ out.objectList,
        detectionParams.perClassThreshold.getD 0 0 < b.detectionConfidence) ∧
      (0 ≤ detectionParams.perClassThreshold.getD 0 0 →
        ∀ b ∈ out.objectList, 0 < b.detectionConfidence) ∧
      ((∀ i, i < n →
          layer.buffer (i * (5 + detectionParams.numClassesConfigured) + 4) ≤ 1 ∧
          ∀ c, c < detectionParams.numClassesConfigured →
            layer.buffer (i * (5 + detectionParams.numClassesConfigured) + 5 + c) ≤ 1) →
        ∀ b ∈ out.objectList, b.detectionConfidence ≤ 1) := by
  refine ⟨_, parseCells_eq n layer networkInfo detectionParams objectList, ?_, ?_, ?_⟩
  · intro b hb
    obtain ⟨i, _, hi⟩ := of_mem_decodeStage (mem_decodeStage_of_mem_objectList hb)
    have h := of_mem_cellCandidates hi
    rw [h.2.2.2.1]
    exact h.2.2.1
  · intro h0 b hb
    obtain ⟨i, _, hi⟩ := of_mem_decodeStage (mem_decodeStage_of_mem_objectList hb)
    have h := of_mem_cellCandidates hi
    rw [h.2.2.2.1]
    exact lt_of_le_of_lt h0 h.2.2.1
  · intro hle b hb
    obtain ⟨i, hin, hi⟩ := of_mem_decodeStage (mem_decodeStage_of_mem_objectList hb)
    have h := of_mem_cellCandidates hi
    have ho := (hle i hin).1
    have hs := (hle i hin).2 b.classId h.2.1
    have hg : 0 < layer.buffer (i * (5 + detectionParams.numClassesConfigured) + 4) :=
      lt_trans (by norm_num [objectnessGate]) h.1
    rw [h.2.2.2.1]
    calc layer.buffer (i * (5 + detectionParams.numClassesConfigured) + 5 + b.classId) *
          layer.buffer (i * (5 + detectionParams.numClassesConfigured) + 4)
        ≤ 1 * layer.buffer (i * (5 + detectionParams.numClassesConfigured) + 4) :=
          mul_le_mul_of_nonneg_right hs hg.le
      _ ≤ 1 := by rw [one_mul]; exact ho

/-- The class labels of the decoder for an arbitrary loop bound `n`. -/
theorem classId_cells (n : Nat) (layer : NvDsInferLayerInfo)
    (networkInfo : NvDsInferNetworkInfo) (detectionParams : NvDsInferParseDetectionParams)
    (objectList : List NvDsInferParseObjectInfo) :
    (∀ b ∈ (decodeStage n layer networkInfo detectionParams).2,
      b.classId < detectionParams.numClassesConfigured) ∧
    (∃ result, nmsAllClasses beta_nms (decodeStage n layer networkInfo detectionParams).2
      detectionParams.numClassesConfigured = some result) ∧
    (∃ out, parseCells n layer networkInfo detectionParams objectList = some out) :=
  ⟨classId_lt_of_mem_decodeStage,
    ⟨_, nmsAllClasses_eq beta_nms _ _ classId_lt_of_mem_decodeStage⟩,
    ⟨_, parseCells_eq n layer networkInfo detectionParams objectList⟩⟩

theorem gateLayer_objectness (i : Nat) : gateLayer.buffer (i * (5 + 2) + 4) = objectnessGate := by
  have h : (i * (5 + 2) + 4) % 7 = 4 := by omega
  simp only [gateLayer, h, if_true]

theorem hotLayer_far (i k : Nat) (h : i ≠ 0) : hotLayer.buffer (i * (5 + 2) + k) = 0 := by
  unfold hotLayer
  exact List.getD_eq_default _ _ (by simp only [hotCell, List.length_cons, List.length_nil]; omega)

theorem hotLayer_cellCandidates_far (thr : ℚ) (netW netH i : Nat) (h : i ≠ 0) :
    cellCandidates hotLayer.buffer (5 + 2) thr netW netH i = [] := by
  rw [cellCandidates_eq, hotLayer_far i 4 h, if_pos (by norm_num [objectnessGate])]

theorem hotLayer_cellCandidates_low :
    cellCandidates hotLayer.buffer (5 + 2) (1 / 5) 10 10 0 = [⟨0, 3, 3, 4, 4, 2⟩] := by
  rw [cellCandidates_eq]
  norm_num [objectnessGate, hotLayer, hotCell, List.range_succ, addBBoxProposal, convertBBox,
    clamp]

/-- The call on `hotLayer` with thresholds `0.2` returns the single candidate of cell 0. -/
theorem parse_hotLayer :
    parseCells 25200 hotLayer sampleNet sampleParamsLow [] =
      some { buffer := scaledBuffer hotLayer.buffer (5 + 2) 25200
             objectList := [⟨0, 3, 3, 4, 4, 2⟩]
             ret := true } := by
  have h := parseCells_of_single 25200 hotLayer sampleNet sampleParamsLow [] (by decide)
    (fun i _ hi => hotLayer_cellCandidates_far _ _ _ i hi)
  have hc : cellCandidates hotLayer.buffer (5 + sampleParamsLow.numClassesConfigured)
      (sampleParamsLow.perClassThreshold.getD 0 0) sampleNet.width sampleNet.height 0
      = [⟨0, 3, 3, 4, 4, 2⟩] := hotLayer_cellCandidates_low
  rw [hc] at h
  rw [h]
  simp [sampleParamsLow, List.range_succ, ofClass, nonMaximumSuppression_singleton,
    nonMaximumSuppression_nil]

/-- The candidate list that the first call on `sampleLayer` with thresholds `0.2` hands to
`nmsAllClasses`. -/
theorem decodeStage_sampleLayer_low :
    (decodeStage 25200 sampleLayer sampleNet sampleParamsLow).2 =
      [⟨0, 3, 3, 4, 4, 1 / 4⟩, ⟨1, 3, 3, 4, 4, 1 / 4⟩] :=
  (@decodeStage_single 25200 sampleLayer sampleNet sampleParamsLow (by decide)
    (fun i _ hi => sampleLayer_cellCandidates_far _ _ _ i hi)).trans
    sampleLayer_cellCandidates_low

theorem sampleLayer_objectness_le_one (i : Nat) :
    sampleLayer.buffer (i * (5 + 2) + 4) ≤ 1 := by
  by_cases hi : i = 0
  · subst hi
    norm_num [sampleLayer, sampleCell]
  · rw [sampleLayer_far i 4 hi]
    norm_num

theorem sampleLayer_score_le_one (i c : Nat) (hc : c < 2) :
    sampleLayer.buffer (i * (5 + 2) + 5 + c) ≤ 1 := by
  by_cases hi : i = 0
  · subst hi
    interval_cases c <;> norm_num [sampleLayer, sampleCell]
  · rw [Nat.add_assoc, sampleLayer_far i (5 + c) hi]
    norm_num

/-- Claim C12: for every buffer in which each of the processed cells `0 .. 25199` has objectness
at most `0.4f` (the gate value itself included), every prior content of `objectList` and
every threshold configuration, `NvDsInferParseYolo` returns `true` and leaves `objectList`
empty. -/
theorem parse_below_gate (layer : NvDsInferLayerInfo)
    (networkInfo : NvDsInferNetworkInfo) (detectionParams : NvDsInferParseDetectionParams)
    (objectList : List NvDsInferParseObjectInfo)
    (h : ∀ i, i < 25200 →
      layer.buffer (i * (5 + detectionParams.numClassesConfigured) + 4) ≤ objectnessGate) :
    ∃ out, NvDsInferParseYolo layer networkInfo detectionParams objectList = some out ∧
      out.ret = true ∧ out.objectList = [] :=
  gate_cells 25200 layer networkInfo detectionParams objectList h

/-- Witness for C12: in `gateLayer` every objectness is exactly `0.4f` and every class score is
`1`; called with the prior list `[sampleA]`, the parser returns `true` and an empty list. -/
theorem parse_below_gate_witness :
    (∀ i, i < 25200 → gateLayer.buffer (i * (5 + 2) + 4) = objectnessGate) ∧
    ∃ out, NvDsInferParseYolo gateLayer sampleNet sampleParams [sampleA] = some out ∧
      out.ret = true ∧ out.objectList = [] :=
  ⟨fun i _ => gateLayer_objectness i,
    parse_below_gate gateLayer sampleNet sampleParams [sampleA]
      (fun i _ => le_of_eq (gateLayer_objectness i))⟩

/-- Claim C13, as stated, fails: on `hotLayer` (objectness `1`, class-0 score `2`) with
thresholds `0.2` the returned list holds a candidate of confidence `2`. -/
theorem confidence_above_one :
    ∃ out, NvDsInferParseYolo hotLayer sampleNet sampleParamsLow [] = some out ∧
      ∃ b ∈ out.objectList, b.detectionConfidence = 2 ∧
        ¬ (0 < b.detectionConfidence ∧ b.detectionConfidence ≤ 1) :=
  ⟨_, parse_hotLayer, ⟨0, 3, 3, 4, 4, 2⟩, List.mem_singleton_self _, rfl, by norm_num⟩

/-- Claim C13, amended: the call returns, and every candidate of the returned list has a
confidence above `perClassThreshold[0]`, hence above `0` when that threshold is not negative;
and when the objectness and the class scores of the processed cells `0 .. 25199` are at most
`1`, every candidate has a confidence of at most `1`. -/
theorem confidence_range (layer : NvDsInferLayerInfo)
    (networkInfo : NvDsInferNetworkInfo) (detectionParams : NvDsInferParseDetectionParams)
    (objectList : List NvDsInferParseObjectInfo) :
    ∃ out, NvDsInferParseYolo layer networkInfo detectionParams objectList = some out ∧
      (∀ b ∈ out.objectList,
        detectionParams.perClassThreshold.getD 0 0 < b.detectionConfidence) ∧
      (0 ≤ detectionParams.perClassThreshold.getD 0 0 →
        ∀ b ∈ out.objectList, 0 < b.detectionConfidence) ∧
      ((∀ i, i < 25200 →
          layer.buffer (i * (5 + detectionParams.numClassesConfigured) + 4) ≤ 1 ∧
          ∀ c, c < detectionParams.numClassesConfigured →
            layer.buffer (i * (5 + detectionParams.numClassesConfigured) + 5 + c) ≤ 1) →
        ∀ b ∈ out.objectList, b.detectionConfidence ≤ 1) :=
  confidence_cells 25200 layer networkInfo detectionParams objectList

/-- Witness for C13 (amended): on `sampleLayer` with thresholds `0.2` (not negative), where
objectness and class scores are at most `1`, every returned candidate has a confidence in
`(0, 1]`. -/
theorem confidence_range_witness :
    ∃ out, NvDsInferParseYolo sampleLayer sampleNet sampleParamsLow [] = some out ∧
      (∀ b ∈ out.objectList, 0 < b.detectionConfidence) ∧
      (∀ b ∈ out.objectList, b.detectionConfidence ≤ 1) :=
  (confidence_range sampleLayer sampleNet sampleParamsLow []).imp
    (fun _ h => ⟨h.1, h.2.2.1 (by norm_num [sampleParamsLow]),
      h.2.2.2 (fun i _ => ⟨sampleLayer_objectness_le_one i,
        fun c hc => sampleLayer_score_le_one i c hc⟩)⟩)

/-- Claim C18: every candidate that the decode loop of `NvDsInferParseYolo` passes to
`nmsAllClasses` has a class label below `numClassesConfigured` (and not below `0`, the label
being unsigned); so the bucket lookup of `nmsAllClasses` does not throw on that list, and the
call of `NvDsInferParseYolo` returns. -/
theorem decoder_class_in_range (layer : NvDsInferLayerInfo)
    (networkInfo : NvDsInferNetworkInfo) (detectionParams : NvDsInferParseDetectionParams)
    (objectList : List NvDsInferParseObjectInfo) :
    (∀ b ∈ (decodeStage 25200 layer networkInfo detectionParams).2,
      b.classId < detectionParams.numClassesConfigured) ∧
    (∃ result, nmsAllClasses beta_nms (decodeStage 25200 layer networkInfo detectionParams).2
      detectionParams.numClassesConfigured = some result) ∧
    (∃ out, NvDsInferParseYolo layer networkInfo detectionParams objectList = some out) :=
  classId_cells 25200 layer networkInfo detectionParams objectList

/-- Witness for C18: the class-1 candidate that cell 0 of `sampleLayer` emits at thresholds
`0.2` is handed to `nmsAllClasses`, and its label `1` is below the class count `2`. -/
theorem decoder_class_in_range_witness :
    (⟨1, 3, 3, 4, 4, 1 / 4⟩ : NvDsInferParseObjectInfo) ∈
      (decodeStage 25200 sampleLayer sampleNet sampleParamsLow).2 ∧
    (⟨1, 3, 3, 4, 4, 1 / 4⟩ : NvDsInferParseObjectInfo).classId < 2 :=
  ⟨by rw [decodeStage_sampleLayer_low]; simp,
    (decoder_class_in_range sampleLayer sampleNet sampleParamsLow []).1 ⟨1, 3, 3, 4, 4, 1 / 4⟩
      (by rw [decodeStage_sampleLayer_low]; simp)⟩

end YoloParser
